import Mathlib

/-!
Verification of the lay-engine back-test workbench front-end.

The repository is a React single-page application: a strategy editor
(`StrategyEditor.jsx`, `RuleCard.jsx`, `ConditionRow.jsx`, `ActionRow.jsx`),
a results view (`SummaryBar`, `ResultsPanel` in `ActionRow.jsx`), the
top-level application state (`App`), and a thin fetch wrapper (`api.js`).
This file shallowly embeds the data model and the pure computations of
those components and proves the specification claims about them.

Conventions of the embedding:
- JavaScript numbers are modelled as `Rat` (they are used here for exact
  monetary arithmetic of small decimals); counts are `Nat`, priorities `Int`.
- A JavaScript value that may be `undefined`/`null` is an `Option`.
- JavaScript string falsiness (the `x || ''` and `x || 0` idioms in the
  source) is spelled out explicitly at each use site.
- Stateful component behaviour is embedded as explicit state-passing
  functions on a state record.
-/

namespace LayEngine

/-! ## Data model (spec section 3, editor components)

The enumerations come from the `<select>` option lists in
`ConditionRow.jsx` and `ActionRow.jsx`. -/

/-- The market-state fields offered by `ConditionRow.jsx` (`FIELDS`). -/
inductive FieldName where
  | fav_lay_odds
  | fav_back_odds
  | second_fav_lay_odds
  | second_fav_back_odds
  | gap_to_second
  | runner_count
  | total_matched
  | fav_total_matched
deriving DecidableEq, Repr

/-- The comparison operators offered by `ConditionRow.jsx` (`OPERATORS`). -/
inductive OperatorKind where
  | lt
  | lte
  | gt
  | gte
  | eq
  | neq
  | between
deriving DecidableEq, Repr

/-- The runner-rank targets offered by `ActionRow.jsx` (`TARGETS`). -/
inductive TargetRank where
  | favourite
  | second_favourite
  | third_favourite
deriving DecidableEq, Repr

/-- Bet direction (`ActionRow.jsx` bet-type select). -/
inductive BetType where
  | LAY
  | BACK
deriving DecidableEq, Repr

/-- A condition row: one predicate over a named market field. -/
structure Condition where
  field : FieldName
  op : OperatorKind
  value : Rat
  value_high : Option Rat
deriving DecidableEq, Repr

/-- An action row: an instruction to place a bet. -/
structure Action where
  target : TargetRank
  bet_type : BetType
  stake : Rat
deriving DecidableEq, Repr

/-- A rule: an AND-group of conditions plus actions, with priority and a
stop flag (shape built by `addRule` in `StrategyEditor.jsx`). -/
structure Rule where
  id : String
  name : String
  priority : Int
  conditions : List Condition
  actions : List Action
  stop_on_match : Bool
deriving DecidableEq, Repr

/-- A strategy: a named ordered collection of rules. -/
structure Strategy where
  id : String
  name : String
  rules : List Rule
deriving DecidableEq, Repr

/-! ## Bet outcomes and the results view (`ResultsPanel` in `ActionRow.jsx`) -/

/-- A settled bet outcome as consumed by `ResultsPanel` (all numeric
fields present; the raw wire shape with possibly-absent fields is
`RawBetOutcome` below). -/
structure BetOutcome where
  market_id : String
  rule_id : String
  runner_name : String
  bet_type : BetType
  price : Rat
  stake : Rat
  liability : Rat
  runner_result : String
  profit : Rat
deriving DecidableEq, Repr

/-- The accumulating pass of `ResultsPanel`:

`let runningPnl = 0;
 bet_outcomes.map(o => { runningPnl += o.profit;
                         return { ...o, running_pnl: runningPnl } })`

`runningMap acc outs` is the tail of that traversal when the accumulator
already holds `acc`. -/
def runningMap (acc : Rat) : List BetOutcome → List (BetOutcome × Rat)
  | [] => []
  | o :: rest => (o, acc + o.profit) :: runningMap (acc + o.profit) rest

/-- `outcomesWithRunning` from `ResultsPanel`: pair every outcome with the
running cumulative profit, starting from 0. -/
def outcomesWithRunning (outs : List BetOutcome) : List (BetOutcome × Rat) :=
  runningMap 0 outs

theorem runningMap_map_fst (acc : Rat) (outs : List BetOutcome) :
    (runningMap acc outs).map Prod.fst = outs := by
  induction outs generalizing acc with
  | nil => rfl
  | cons o rest ih => simp [runningMap, ih]

theorem runningMap_length (acc : Rat) (outs : List BetOutcome) :
    (runningMap acc outs).length = outs.length := by
  induction outs generalizing acc with
  | nil => rfl
  | cons o rest ih => simp [runningMap, ih]

theorem runningMap_get (acc : Rat) (outs : List BetOutcome) (i : Nat)
    (h : i < (runningMap acc outs).length) :
    ((runningMap acc outs).get ⟨i, h⟩).2
      = acc + (((outs.take (i + 1)).map BetOutcome.profit).sum) := by
  induction outs generalizing acc i with
  | nil => simp [runningMap] at h
  | cons o rest ih =>
    cases i with
    | zero => simp [runningMap]
    | succ j =>
      have hj : j < (runningMap (acc + o.profit) rest).length := by
        simpa [runningMap] using h
      have := ih (acc + o.profit) j hj
      simp only [runningMap, List.get_cons_succ, List.take_succ_cons, List.map_cons,
        List.sum_cons] at this ⊢
      rw [this]
      ring

/-- C1. For every list of bet outcomes, `outcomesWithRunning` produces one
`(outcome, running_pnl)` pair per input outcome, preserving the input order
without re-sorting (the first components read back as exactly the input
list), and the `i`-th running value is the sum of the first `i + 1`
profits. -/
theorem claim_C1_running_pnl (outs : List BetOutcome) :
    (outcomesWithRunning outs).map Prod.fst = outs ∧
    (outcomesWithRunning outs).length = outs.length ∧
    ∀ i (h : i < (outcomesWithRunning outs).length),
      ((outcomesWithRunning outs).get ⟨i, h⟩).2
        = (((outs.take (i + 1)).map BetOutcome.profit).sum) := by
  refine ⟨runningMap_map_fst 0 outs, runningMap_length 0 outs, ?_⟩
  intro i h
  have := runningMap_get 0 outs i h
  simpa [outcomesWithRunning] using this

/-- A two-element concrete outcome list used to witness the results-view
claims (profits +5 and -3). -/
def demoOutcomes : List BetOutcome :=
  [ { market_id := "m1", rule_id := "r1", runner_name := "Alpha",
      bet_type := BetType.LAY, price := 2, stake := 1, liability := 1,
      runner_result := "LOSER", profit := 5 },
    { market_id := "m2", rule_id := "r1", runner_name := "Beta",
      bet_type := BetType.LAY, price := 3, stake := 1, liability := 2,
      runner_result := "WINNER", profit := -3 } ]

theorem claim_C1_running_pnl_witness :
    ((outcomesWithRunning demoOutcomes).map Prod.fst = demoOutcomes) ∧
    ((outcomesWithRunning demoOutcomes).get
        ⟨1, by simp [demoOutcomes, outcomesWithRunning, runningMap]⟩).2 = 2 := by
  refine ⟨(claim_C1_running_pnl demoOutcomes).1, ?_⟩
  rw [(claim_C1_running_pnl demoOutcomes).2.2 1
    (by simp [demoOutcomes, outcomesWithRunning, runningMap])]
  norm_num [demoOutcomes]

/-! ## Priority ordering of rules (`StrategyEditor.jsx`)

The rule list of the editor renders

`strategy.rules.sort((a, b) => a.priority - b.priority).map(...)`.

ECMAScript `Array.prototype.sort` (a) orders the array ascending by the
comparator and is stable since ES2019, and (b) sorts **in place**: the very
array object held by `strategy.rules` is reordered, so after the render the
strategy's stored rule order is the sorted order.  `sortRules` embeds (a)
as a stable insertion sort; `readRulesInPriorityOrder` embeds the whole
read step including the in-place effect (b), returning both the list in
render order and the strategy as it stands after the read. -/

/-- Stable insertion of a rule into a priority-sorted list: `r` is placed
before the first element whose priority is not strictly smaller, hence
after all earlier-inserted rules of strictly smaller priority and before
all rules of equal priority that followed it in the input. -/
def insertRule (r : Rule) : List Rule → List Rule
  | [] => [r]
  | x :: xs => if x.priority < r.priority then x :: insertRule r xs else r :: x :: xs

/-- The comparator-ordered, stable reading of the rules list
(`.sort((a, b) => a.priority - b.priority)` as a pure value). -/
def sortRules : List Rule → List Rule
  | [] => []
  | r :: rest => insertRule r (sortRules rest)

/-- The render-time read of the rules in priority order.  The first
component is the order in which the rules are displayed; the second is the
strategy after the read: because the JavaScript sort mutates the array in
place, the stored list is the sorted one. -/
def readRulesInPriorityOrder (s : Strategy) : List Rule × Strategy :=
  (sortRules s.rules, { s with rules := sortRules s.rules })

/-- Ascending-priority comparison on rules, as a relation. -/
def priorityLE (a b : Rule) : Prop := a.priority ≤ b.priority

instance : DecidableRel priorityLE :=
  fun a b => inferInstanceAs (Decidable (a.priority ≤ b.priority))

theorem insertRule_perm (r : Rule) (l : List Rule) :
    (insertRule r l).Perm (r :: l) := by
  induction l with
  | nil => rfl
  | cons x xs ih =>
    by_cases h : x.priority < r.priority
    · simp only [insertRule, if_pos h]
      exact (ih.cons x).trans (List.Perm.swap r x xs)
    · simp only [insertRule, if_neg h]
      exact List.Perm.refl _

theorem sortRules_perm (l : List Rule) : (sortRules l).Perm l := by
  induction l with
  | nil => rfl
  | cons r rest ih =>
    exact (insertRule_perm r (sortRules rest)).trans (ih.cons r)

theorem insertRule_sorted (r : Rule) (l : List Rule)
    (hl : l.Sorted priorityLE) : (insertRule r l).Sorted priorityLE := by
  induction l with
  | nil => simp [insertRule, List.Sorted]
  | cons x xs ih =>
    rw [List.sorted_cons] at hl
    by_cases h : x.priority < r.priority
    · simp only [insertRule, if_pos h]
      rw [List.sorted_cons]
      refine ⟨?_, ih hl.2⟩
      intro b hb
      have hb' : b ∈ r :: xs := (insertRule_perm r xs).mem_iff.1 hb
      rcases List.mem_cons.1 hb' with hb1 | hb2
      · subst hb1; exact le_of_lt h
      · exact hl.1 b hb2
    · simp only [insertRule, if_neg h]
      rw [List.sorted_cons]
      refine ⟨?_, List.sorted_cons.2 hl⟩
      intro b hb
      have hrx : priorityLE r x := le_of_not_lt h
      rcases List.mem_cons.1 hb with hb1 | hb2
      · subst hb1; exact hrx
      · exact le_trans hrx (hl.1 b hb2)

theorem sortRules_sorted (l : List Rule) : (sortRules l).Sorted priorityLE := by
  induction l with
  | nil => simp [sortRules, List.Sorted]
  | cons r rest ih => exact insertRule_sorted r (sortRules rest) ih

/-- Inserting `r` commutes with filtering on a fixed priority value: `r`
lands in front of every equal-priority element already present. -/
theorem insertRule_filter_priority (r : Rule) (l : List Rule) (p : Int) :
    (insertRule r l).filter (fun x => x.priority == p)
      = if r.priority = p then r :: l.filter (fun x => x.priority == p)
        else l.filter (fun x => x.priority == p) := by
  induction l with
  | nil => by_cases h : r.priority = p <;> simp [insertRule, List.filter_cons, h]
  | cons x xs ih =>
    by_cases hx : x.priority < r.priority
    · rw [insertRule, if_pos hx, List.filter_cons, ih]
      by_cases hr : r.priority = p
      · have hxp : ¬ (x.priority = p) := by omega
        simp [List.filter_cons, hr, hxp, beq_iff_eq]
      · by_cases hxp : x.priority = p <;>
          simp [List.filter_cons, hr, hxp, beq_iff_eq]
    · rw [insertRule, if_neg hx, List.filter_cons, List.filter_cons]
      by_cases hr : r.priority = p <;>
        by_cases hxp : x.priority = p <;>
          simp [List.filter_cons, hr, hxp, beq_iff_eq]

/-- Stability of the priority sort, phrased through filters: within each
priority value, the sorted list reads back the input subsequence
unchanged. -/
theorem sortRules_filter_priority (l : List Rule) (p : Int) :
    (sortRules l).filter (fun x => x.priority == p)
      = l.filter (fun x => x.priority == p) := by
  induction l with
  | nil => rfl
  | cons r rest ih =>
    rw [sortRules, insertRule_filter_priority, List.filter_cons]
    by_cases hr : r.priority = p <;> simp [hr, ih]

/-- A sorted list is left unchanged by `sortRules`. -/
theorem sortRules_of_sorted (l : List Rule) (hl : l.Sorted priorityLE) :
    sortRules l = l := by
  induction l with
  | nil => rfl
  | cons r rest ih =>
    rw [List.sorted_cons] at hl
    rw [sortRules, ih hl.2]
    cases rest with
    | nil => rfl
    | cons x xs =>
      have : ¬ x.priority < r.priority :=
        not_lt.2 (hl.1 x (List.mem_cons_self x xs))
      simp [insertRule, this]

/-- `sortRules` fixes exactly the already-sorted lists. -/
theorem sortRules_eq_self_iff (l : List Rule) :
    sortRules l = l ↔ l.Sorted priorityLE := by
  constructor
  · intro h; rw [← h]; exact sortRules_sorted l
  · exact sortRules_of_sorted l

/-- C8. The rules as read for evaluation/presentation are in ascending
priority order; they are a permutation of the input (no rule added or
dropped); and for every priority value the equal-priority rules appear in
exactly their input order (stability). -/
theorem claim_C8_stable_priority_order (rules : List Rule) :
    (sortRules rules).Sorted priorityLE ∧
    (sortRules rules).Perm rules ∧
    ∀ p : Int, (sortRules rules).filter (fun x => x.priority == p)
      = rules.filter (fun x => x.priority == p) :=
  ⟨sortRules_sorted rules, sortRules_perm rules,
    sortRules_filter_priority rules⟩

/-- A rule with only a priority set, used in concrete strategies. -/
def bareRule (i : String) (p : Int) : Rule :=
  { id := i, name := i, priority := p, conditions := [], actions := [],
    stop_on_match := true }

/-- A strategy whose stored rules are out of priority order. -/
def demoStrategy : Strategy :=
  { id := "s1", name := "demo", rules := [bareRule "b" 2, bareRule "a" 1] }

/-- C3, counterexample.  Reading the rules of `demoStrategy` in priority
order does **not** leave the stored rules list unchanged: the in-place
JavaScript sort persists the sorted order into the strategy. -/
theorem claim_C3_counterexample :
    (readRulesInPriorityOrder demoStrategy).2 ≠ demoStrategy := by
  decide

/-- C3, amended.  Ordering the rules by priority for presentation is done
by an in-place sort on the stored rules list: after the read the stored
list is sorted ascending by priority and is a permutation of the original
rules, and it is unchanged precisely when the rules were already stored in
ascending-priority order. -/
theorem claim_C3_sort_mutates_storage (s : Strategy) :
    ((readRulesInPriorityOrder s).2.rules).Sorted priorityLE ∧
    ((readRulesInPriorityOrder s).2.rules).Perm s.rules ∧
    ((readRulesInPriorityOrder s).2 = s ↔ s.rules.Sorted priorityLE) := by
  refine ⟨sortRules_sorted s.rules, sortRules_perm s.rules, ?_⟩
  constructor
  · intro h
    have : sortRules s.rules = s.rules := congrArg Strategy.rules h
    exact (sortRules_eq_self_iff s.rules).1 this
  · intro h
    show ({ s with rules := sortRules s.rules } : Strategy) = s
    rw [sortRules_of_sorted s.rules h]

/-! ## Stake edits (`ActionRow.jsx`)

The stake input commits `parseFloat(e.target.value) || 0`.  The input text
itself is outside the embedding; what reaches the expression is the result
of `parseFloat`, modelled as `Option Rat` with `none` standing for `NaN`
(the result on text that does not start with a number). -/

/-- The JavaScript expression `pv || 0` for `pv` a `parseFloat` result:
`NaN` is falsy and becomes `0`; the number `0` is falsy and becomes the
literal `0` (the same value); every other number passes through. -/
def parseFloatOrZero (pv : Option Rat) : Rat :=
  match pv with
  | none => 0
  | some x => if x = 0 then 0 else x

/-- The stake branch of `update` in `ActionRow.jsx`: replace the action's
stake with `parseFloat(text) || 0`. -/
def updateStake (a : Action) (pv : Option Rat) : Action :=
  { a with stake := parseFloatOrZero pv }

/-- A concrete action used in counterexamples and witnesses. -/
def demoAction : Action :=
  { target := TargetRank.favourite, bet_type := BetType.LAY, stake := 1 }

/-- C9, counterexample.  Clearing the stake input (`parseFloat('')` is
`NaN`, modelled as `none`) commits an action whose stake is `0`, which is
not greater than zero: the editor does not enforce `stake > 0`. -/
theorem claim_C9_counterexample :
    (updateStake demoAction none).stake = 0 ∧
    ¬ (0 < (updateStake demoAction none).stake) := by
  constructor
  · rfl
  · intro h
    simp [updateStake, parseFloatOrZero, demoAction] at h

/-- C9, amended.  A stake edit sets the stake to the parsed numeric value
when the input parses, and to `0` when it does not; consequently the
resulting stake is positive exactly when the entered number is positive,
and `stake > 0` is not enforced at entry time. -/
theorem claim_C9_stake_edit (a : Action) (pv : Option Rat) :
    ((pv = none ∨ pv = some 0) → (updateStake a pv).stake = 0) ∧
    (∀ x : Rat, pv = some x → x ≠ 0 → (updateStake a pv).stake = x) ∧
    (0 < (updateStake a pv).stake ↔ ∃ x : Rat, pv = some x ∧ 0 < x) := by
  refine ⟨?_, ?_, ?_⟩
  · rintro (rfl | rfl) <;> simp [updateStake, parseFloatOrZero]
  · rintro x rfl hx
    simp [updateStake, parseFloatOrZero, hx]
  · cases pv with
    | none => simp [updateStake, parseFloatOrZero]
    | some x =>
      by_cases hx : x = 0
      · subst hx; simp [updateStake, parseFloatOrZero]
      · simp only [updateStake, parseFloatOrZero, if_neg hx]
        constructor
        · intro h; exact ⟨x, rfl, h⟩
        · rintro ⟨y, hy, hy0⟩
          cases Option.some.injEq x y ▸ hy with
          | _ => exact (Option.some_inj.1 hy) ▸ hy0

theorem claim_C9_stake_edit_witness :
    (updateStake demoAction (some (3 / 2))).stake = 3 / 2 :=
  (claim_C9_stake_edit demoAction (some (3 / 2))).2.1 (3 / 2) rfl (by norm_num)

/-! ## Joining outcomes to market metadata (`ResultsPanel`)

`const eval_ = evaluations.find(e => e.market_id === o.market_id) || {}`
followed by `eval_.venue || ''` and `eval_.market_name || ''`.  An
evaluation record's fields may themselves be absent (`Option`), and the
`|| {}` fallback supplies a record with no fields at all. -/

/-- Per-market evaluation metadata supplied by the execution engine. -/
structure Evaluation where
  market_id : String
  venue : Option String
  market_name : Option String
deriving DecidableEq, Repr

/-- `evaluations.find(e => e.market_id === o.market_id)`. -/
def findEvaluation (evals : List Evaluation) (mid : String) : Option Evaluation :=
  evals.find? (fun e => e.market_id == mid)

/-- The venue cell text: `(find(...) || {}).venue || ''`.  An absent
record, an absent field, and an empty string all display as `''`. -/
def displayVenue (evals : List Evaluation) (mid : String) : String :=
  match findEvaluation evals mid with
  | some e =>
    match e.venue with
    | some v => if v = "" then "" else v
    | none => ""
  | none => ""

/-- The market-name cell text: `(find(...) || {}).market_name || ''`. -/
def displayMarketName (evals : List Evaluation) (mid : String) : String :=
  match findEvaluation evals mid with
  | some e =>
    match e.market_name with
    | some v => if v = "" then "" else v
    | none => ""
  | none => ""

/-- C7.  When no evaluation record carries the outcome's `market_id`, the
join degrades to empty venue and market-name strings (it is a total
function; no failure path exists). -/
theorem claim_C7_missing_market_join (evals : List Evaluation) (mid : String)
    (h : ∀ e ∈ evals, e.market_id ≠ mid) :
    displayVenue evals mid = "" ∧ displayMarketName evals mid = "" := by
  have hfind : findEvaluation evals mid = none := by
    apply List.find?_eq_none.2
    intro e he
    simpa [beq_iff_eq] using h e he
  simp [displayVenue, displayMarketName, hfind]

theorem claim_C7_missing_market_join_witness :
    displayVenue [⟨"m9", some "Ascot", some "2m Hcap"⟩] "m1" = "" ∧
    displayMarketName [⟨"m9", some "Ascot", some "2m Hcap"⟩] "m1" = "" :=
  claim_C7_missing_market_join [⟨"m9", some "Ascot", some "2m Hcap"⟩] "m1"
    (by intro e he; simp at he; subst he; decide)

/-! ## Summary statistics (`SummaryBar`, spec section 4.2)

The summary record as displayed by `SummaryBar`. -/

structure Summary where
  total_pnl : Rat
  win_count : Nat
  loss_count : Nat
  win_rate : Rat
  roi_percent : Rat
  total_stake : Rat
  total_liability : Rat
  avg_win : Rat
  avg_loss : Rat
deriving DecidableEq, Repr

/-! ## The application state and the run handler (`App` / `handleRun`) -/

/-- The simulation response shape consumed by `ResultsPanel`. -/
structure SimResponse where
  strategy_name : String
  markets_evaluated : Nat
  markets_with_bets : Nat
  bets_placed : Nat
  bet_outcomes : List BetOutcome
  evaluations : List Evaluation
  summary : Summary
deriving DecidableEq, Repr

/-- The body posted by `runSimulation` in `api.js`:
`{ date, strategy, market_ids: marketIds }`. -/
structure SimRequest where
  date : String
  strategy : Strategy
  market_ids : Option (List String)
deriving DecidableEq, Repr

/-- A failed external call (the `fetch` rejecting or throwing). -/
inductive SimError where
  | transport (message : String)
deriving DecidableEq, Repr

/-- The `App` component state touched by `handleRun`.  An empty
`selectedDate` string is falsy in the `!selectedDate` guard; `strategy`
is `null` until loaded. -/
structure AppState where
  selectedDate : String
  selectedMarkets : List String
  strategy : Option Strategy
  results : Option SimResponse
  running : Bool
deriving DecidableEq, Repr

/-- The request `handleRun` would send, if any:
`if (!selectedDate || !strategy) return` guards the run, and
`selectedMarkets.length > 0 ? selectedMarkets : null` chooses the
market-id parameter. -/
def requestOf (s : AppState) : Option SimRequest :=
  if s.selectedDate = "" then none
  else
    match s.strategy with
    | none => none
    | some strat =>
      some { date := s.selectedDate, strategy := strat,
             market_ids := if s.selectedMarkets.length > 0
                           then some s.selectedMarkets else none }

/-- `handleRun` as a state transition.  The external call is a parameter
(`engine`); its result drives the `try`/`catch`/`finally`: on success the
response is stored in `results`, on failure only `console.error` runs (the
reported error is returned as the second component) and `results` is left
as it was; `finally` clears `running` whenever the call was made at all. -/
def handleRun (s : AppState)
    (engine : SimRequest → Except SimError SimResponse) :
    AppState × Option SimError :=
  match requestOf s with
  | none => (s, none)
  | some req =>
    match engine req with
    | Except.ok data => ({ s with results := some data, running := false }, none)
    | Except.error e => ({ s with running := false }, some e)

/-- C6.  When the external simulation call fails, the previously displayed
results are left exactly as they were and the failure is reported (it is
returned to the error log, not swallowed into the results state). -/
theorem claim_C6_failed_run_keeps_results (s : AppState) (req : SimRequest)
    (e : SimError) (engine : SimRequest → Except SimError SimResponse)
    (hreq : requestOf s = some req) (heng : engine req = Except.error e) :
    (handleRun s engine).1.results = s.results ∧
    (handleRun s engine).2 = some e ∧
    (handleRun s engine).1 = { s with running := false } := by
  simp [handleRun, hreq, heng]

/-- A concrete app state with a date, a loaded strategy, no market
selection and previously displayed results. -/
def demoState : AppState :=
  { selectedDate := "2025-06-01", selectedMarkets := [],
    strategy := some demoStrategy,
    results := some { strategy_name := "demo", markets_evaluated := 3,
                      markets_with_bets := 1, bets_placed := 2,
                      bet_outcomes := demoOutcomes, evaluations := [],
                      summary := { total_pnl := 2, win_count := 1,
                                   loss_count := 1, win_rate := 1/2,
                                   roi_percent := 100, total_stake := 2,
                                   total_liability := 3, avg_win := 5,
                                   avg_loss := -3 } },
    running := false }

theorem claim_C6_failed_run_keeps_results_witness :
    (handleRun demoState (fun _ => Except.error (SimError.transport "boom"))).1.results
      = demoState.results ∧
    (handleRun demoState (fun _ => Except.error (SimError.transport "boom"))).2
      = some (SimError.transport "boom") :=
  ⟨(claim_C6_failed_run_keeps_results demoState
      { date := "2025-06-01", strategy := demoStrategy, market_ids := none }
      (SimError.transport "boom")
      (fun _ => Except.error (SimError.transport "boom")) rfl rfl).1,
   (claim_C6_failed_run_keeps_results demoState
      { date := "2025-06-01", strategy := demoStrategy, market_ids := none }
      (SimError.transport "boom")
      (fun _ => Except.error (SimError.transport "boom")) rfl rfl).2.1⟩

/-- C10.  The run is a no-op when the date or the strategy is missing;
otherwise the request carries `market_ids = null` (all markets) for an
empty selection and exactly the selected ids for a non-empty one. -/
theorem claim_C10_market_ids_request (s : AppState) :
    ((s.selectedDate = "" ∨ s.strategy = none) →
      requestOf s = none ∧
      ∀ engine, handleRun s engine = (s, none)) ∧
    (∀ strat, s.strategy = some strat → s.selectedDate ≠ "" →
      (s.selectedMarkets = [] →
        requestOf s = some { date := s.selectedDate, strategy := strat,
                             market_ids := none }) ∧
      (s.selectedMarkets ≠ [] →
        requestOf s = some { date := s.selectedDate, strategy := strat,
                             market_ids := some s.selectedMarkets })) := by
  constructor
  · intro h
    have hnone : requestOf s = none := by
      rcases h with h | h
      · simp [requestOf, h]
      · simp [requestOf, h]
    exact ⟨hnone, fun engine => by simp [handleRun, hnone]⟩
  · intro strat hstrat hdate
    constructor
    · intro hsel
      simp [requestOf, hdate, hstrat, hsel]
    · intro hsel
      have hlen : s.selectedMarkets.length > 0 :=
        List.length_pos.2 hsel
      simp [requestOf, hdate, hstrat, hlen]

theorem claim_C10_market_ids_request_witness :
    requestOf demoState
      = some { date := "2025-06-01", strategy := demoStrategy,
               market_ids := none } ∧
    requestOf { demoState with selectedMarkets := ["mk1", "mk2"] }
      = some { date := "2025-06-01", strategy := demoStrategy,
               market_ids := some ["mk1", "mk2"] } :=
  ⟨((claim_C10_market_ids_request demoState).2 demoStrategy rfl
      (by decide)).1 rfl,
   ((claim_C10_market_ids_request
      { demoState with selectedMarkets := ["mk1", "mk2"] }).2 demoStrategy rfl
      (by decide)).2 (by decide)⟩

/-! ## The Outcome Aggregator (spec section 4.2)

In the observed repository the summary arrives precomputed from the
external engine; the front-end sources under `src/` only display it.  The
Aggregator itself is part of the specified core but its code is not under
`src/`, so it is modelled here from the specification. -/

/-- A bet outcome as it crosses the wire: the numeric fields may be
absent. -/
structure RawBetOutcome where
  market_id : String
  rule_id : String
  runner_name : String
  profit : Option Rat
  stake : Option Rat
  liability : Option Rat
deriving DecidableEq, Repr

/-- The validated numeric triple of one outcome. -/
structure OutcomeFigures where
  profit : Rat
  stake : Rat
  liability : Rat
deriving DecidableEq, Repr

/-- The Aggregator's error taxonomy (spec sections 4.2 and 7). -/
inductive AggError where
  | MalformedOutcome
deriving DecidableEq, Repr

/-- Modelled from the spec: the Aggregator's per-record validation — a
required numeric field (`profit`, `stake`, `liability`) that is absent is
a `MalformedOutcome`, never treated as zero. -/
def checkOutcome (o : RawBetOutcome) : Option OutcomeFigures :=
  match o.profit, o.stake, o.liability with
  | some p, some st, some li => some { profit := p, stake := st, liability := li }
  | _, _, _ => none

/-- Modelled from the spec: the Summary formulas of spec section 4.2,
computed from scratch over the full validated outcome list. -/
def summaryOf (ps : List OutcomeFigures) : Summary :=
  let profits := ps.map OutcomeFigures.profit
  let wins := profits.filter (fun p => decide (0 < p))
  let losses := profits.filter (fun p => decide (p < 0))
  let w := wins.length
  let l := losses.length
  let tp := profits.sum
  let ts := (ps.map OutcomeFigures.stake).sum
  { total_pnl := tp
    win_count := w
    loss_count := l
    win_rate := if 0 < w + l then (w : Rat) / ((w : Rat) + (l : Rat)) else 0
    roi_percent := if 0 < ts then tp / ts * 100 else 0
    total_stake := ts
    total_liability := (ps.map OutcomeFigures.liability).sum
    avg_win := if 0 < w then wins.sum / (w : Rat) else 0
    avg_loss := if 0 < l then losses.sum / (l : Rat) else 0 }

/-- Modelled from the spec: the validation pass over the whole outcome
list — every record must check out, or the list as a whole is rejected. -/
def checkOutcomes : List RawBetOutcome → Option (List OutcomeFigures)
  | [] => some []
  | o :: rest =>
    match checkOutcome o, checkOutcomes rest with
    | some f, some fs => some (f :: fs)
    | _, _ => none

/-- Modelled from the spec: the Aggregator — validate every record, fail
the whole computation with `MalformedOutcome` if any record is missing a
required numeric field, and otherwise compute the Summary of the full
list. -/
def aggregate (outs : List RawBetOutcome) : Except AggError Summary :=
  match checkOutcomes outs with
  | none => Except.error AggError.MalformedOutcome
  | some ps => Except.ok (summaryOf ps)

theorem checkOutcomes_eq_none (outs : List RawBetOutcome)
    (o : RawBetOutcome) (ho : o ∈ outs) (hbad : checkOutcome o = none) :
    checkOutcomes outs = none := by
  induction outs with
  | nil => cases ho
  | cons x xs ih =>
    rcases List.mem_cons.1 ho with h | h
    · subst h
      simp [checkOutcomes, hbad]
    · cases hx : checkOutcome x with
      | none => simp [checkOutcomes, hx]
      | some fx => simp [checkOutcomes, hx, ih h]

/-- C2.  If any outcome record in the list is missing one of the required
numeric fields, the Aggregator fails the whole computation with
`MalformedOutcome`: no Summary is ever produced from a partially-invalid
outcome list. -/
theorem claim_C2_malformed_outcome (outs : List RawBetOutcome)
    (h : ∃ o ∈ outs, o.profit = none ∨ o.stake = none ∨ o.liability = none) :
    aggregate outs = Except.error AggError.MalformedOutcome ∧
    ∀ s : Summary, aggregate outs ≠ Except.ok s := by
  obtain ⟨o, ho, hfield⟩ := h
  have hbad : checkOutcome o = none := by
    rcases hfield with h1 | h1 | h1
    · unfold checkOutcome; rw [h1]
    · unfold checkOutcome; rw [h1]; cases o.profit <;> rfl
    · unfold checkOutcome; rw [h1]; cases o.profit <;> cases o.stake <;> rfl
  have hnone : checkOutcomes outs = none :=
    checkOutcomes_eq_none outs o ho hbad
  rw [aggregate, hnone]
  exact ⟨rfl, fun s hs => by cases hs⟩

/-- A raw outcome list whose second record lacks its `stake`. -/
def demoRawOutcomes : List RawBetOutcome :=
  [ { market_id := "m1", rule_id := "r1", runner_name := "Alpha",
      profit := some 5, stake := some 1, liability := some 1 },
    { market_id := "m2", rule_id := "r1", runner_name := "Beta",
      profit := some (-3), stake := none, liability := some 2 } ]

theorem claim_C2_malformed_outcome_witness :
    aggregate demoRawOutcomes = Except.error AggError.MalformedOutcome :=
  (claim_C2_malformed_outcome demoRawOutcomes
    ⟨{ market_id := "m2", rule_id := "r1", runner_name := "Beta",
       profit := some (-3), stake := none, liability := some 2 },
     by simp [demoRawOutcomes], Or.inr (Or.inl rfl)⟩).1

/-! ## Win-rate display (`SummaryBar`) -/

/-- The Win Rate cell of `SummaryBar`:
`win_count + loss_count > 0
   ? ((win_count / (win_count + loss_count)) * 100).toFixed(1) : '0'`
(the numeric value before decimal formatting). -/
def summaryBarWinRatePct (s : Summary) : Rat :=
  if 0 < s.win_count + s.loss_count then
    ((s.win_count : Rat) / ((s.win_count : Rat) + (s.loss_count : Rat))) * 100
  else 0

/-- C4.  Every Summary the Aggregator produces has
`win_rate = win_count / (win_count + loss_count)` when that denominator is
positive and `0` otherwise, and the value `SummaryBar` displays is exactly
this ratio multiplied by 100. -/
theorem claim_C4_win_rate (outs : List RawBetOutcome) (s : Summary)
    (h : aggregate outs = Except.ok s) :
    (s.win_rate = if 0 < s.win_count + s.loss_count
        then (s.win_count : Rat) / ((s.win_count : Rat) + (s.loss_count : Rat))
        else 0) ∧
    summaryBarWinRatePct s = s.win_rate * 100 := by
  have hrate : s.win_rate = if 0 < s.win_count + s.loss_count
      then (s.win_count : Rat) / ((s.win_count : Rat) + (s.loss_count : Rat))
      else 0 := by
    rw [aggregate] at h
    cases hm : checkOutcomes outs with
    | none => rw [hm] at h; cases h
    | some ps =>
      rw [hm] at h
      cases h
      rfl
  refine ⟨hrate, ?_⟩
  rw [summaryBarWinRatePct, hrate]
  by_cases hd : 0 < s.win_count + s.loss_count
  · simp [hd]
  · simp [hd]

/-- A raw outcome list with all fields present (profits +5, -3, 0). -/
def demoRawComplete : List RawBetOutcome :=
  [ { market_id := "m1", rule_id := "r1", runner_name := "Alpha",
      profit := some 5, stake := some 1, liability := some 1 },
    { market_id := "m2", rule_id := "r1", runner_name := "Beta",
      profit := some (-3), stake := some 1, liability := some 2 },
    { market_id := "m3", rule_id := "r2", runner_name := "Gamma",
      profit := some 0, stake := some 2, liability := some 2 } ]

theorem claim_C4_win_rate_witness :
    summaryBarWinRatePct (summaryOf
        [ { profit := 5, stake := 1, liability := 1 },
          { profit := -3, stake := 1, liability := 2 },
          { profit := 0, stake := 2, liability := 2 } ])
      = (summaryOf
          [ { profit := 5, stake := 1, liability := 1 },
            { profit := -3, stake := 1, liability := 2 },
            { profit := 0, stake := 2, liability := 2 } ]).win_rate * 100 :=
  (claim_C4_win_rate demoRawComplete _ rfl).2

/-! ## Strategy JSON export/import (`StrategyEditor.jsx`)

`exportJSON` writes `JSON.stringify(strategy, null, 2)` to a file;
`importJSON` reads a file and applies `JSON.parse`.  To the pair of
builtins a strategy is an arbitrary JSON value (unknown fields included),
so the embedding works on a JSON value type and models the two builtins:
the pretty printer with a two-space gap exactly as ECMA-262's
`SerializeJSONProperty`, and the grammar-faithful parser.

Numbers: a JavaScript number is printed by `JSON.stringify` as its
shortest decimal numeral (sign, integer digits, optional fraction,
optional `e`-exponent as emitted for magnitudes outside the plain-decimal
range); `JNumber` is that numeral form, which represents the printed
numbers injectively.  Strings are Lean strings (Unicode scalars; JS lone
surrogates are not representable and the parser rejects the corresponding
escapes). -/

/-- A decimal numeral: sign, integer-part digits, fraction digits
(empty = none printed) and an optional exponent (sign, digits). -/
structure JNumber where
  neg : Bool
  ip : List (Fin 10)
  fp : List (Fin 10)
  ex : Option (Bool × List (Fin 10))
deriving DecidableEq, Repr

/-- A JSON value. -/
inductive Jval where
  | jnull : Jval
  | jbool : Bool → Jval
  | jnum : JNumber → Jval
  | jstr : String → Jval
  | jarr : List Jval → Jval
  | jobj : List (String × Jval) → Jval

/-- The opening-brace character, written by code point to keep braces out
of character literals. -/
def lbrace : Char := Char.ofNat 123

/-- The closing-brace character. -/
def rbrace : Char := Char.ofNat 125

/-- Well-formedness of a numeral as `JSON.stringify` emits it: a nonempty
integer part with no leading zero (except the single digit `0` itself) and
a nonempty digit list in the exponent when one is present. -/
def numWF (n : JNumber) : Bool :=
  !n.ip.isEmpty &&
  (n.ip.length == 1 || !(n.ip.head? == some (0 : Fin 10))) &&
  (match n.ex with
   | none => true
   | some (_, ds) => !ds.isEmpty)

mutual

/-- All numerals inside the value are well formed. -/
def wfB : Jval → Bool
  | Jval.jnull => true
  | Jval.jbool _ => true
  | Jval.jnum n => numWF n
  | Jval.jstr _ => true
  | Jval.jarr xs => wfL xs
  | Jval.jobj ms => wfM ms

def wfL : List Jval → Bool
  | [] => true
  | x :: xs => wfB x && wfL xs

def wfM : List (String × Jval) → Bool
  | [] => true
  | m :: ms => wfB m.2 && wfM ms

end

mutual

/-- Node-count measure used as parser fuel budget. -/
def jsize : Jval → Nat
  | Jval.jnull => 1
  | Jval.jbool _ => 1
  | Jval.jnum _ => 1
  | Jval.jstr _ => 1
  | Jval.jarr xs => 1 + jsizeL xs
  | Jval.jobj ms => 1 + jsizeM ms

def jsizeL : List Jval → Nat
  | [] => 0
  | x :: xs => 1 + jsize x + jsizeL xs

def jsizeM : List (String × Jval) → Nat
  | [] => 0
  | m :: ms => 1 + jsize m.2 + jsizeM ms

end

/-- The character for a decimal digit. -/
def digitChar (d : Fin 10) : Char := Char.ofNat (48 + d.val)

/-- Digit list as characters. -/
def digitsChars (ds : List (Fin 10)) : List Char := ds.map digitChar

/-- The printed fraction: nothing, or a point and the digits. -/
def fracChars : List (Fin 10) → List Char
  | [] => []
  | f :: fs => '.' :: digitsChars (f :: fs)

/-- The printed exponent: nothing, or `e`, an explicit sign, digits. -/
def expChars : Option (Bool × List (Fin 10)) → List Char
  | none => []
  | some (es, ds) => 'e' :: (if es then '-' else '+') :: digitsChars ds

/-- The characters of a numeral, as `JSON.stringify` prints the number. -/
def numChars (n : JNumber) : List Char :=
  (if n.neg then ['-'] else []) ++ digitsChars n.ip ++ fracChars n.fp ++
    expChars n.ex

/-- A lowercase hexadecimal digit. -/
def hexDigitChar (n : Nat) : Char :=
  if n < 10 then Char.ofNat (48 + n) else Char.ofNat (87 + n)

/-- `QuoteJSONString`'s escaping of one character: quote, backslash and
the named control escapes, `\u00xx` for the other control characters,
everything else literal. -/
def escapeChar (c : Char) : List Char :=
  if c = '"' then ['\\', '"']
  else if c = '\\' then ['\\', '\\']
  else if c.toNat = 8 then ['\\', 'b']
  else if c.toNat = 9 then ['\\', 't']
  else if c.toNat = 10 then ['\\', 'n']
  else if c.toNat = 12 then ['\\', 'f']
  else if c.toNat = 13 then ['\\', 'r']
  else if c.toNat < 32 then
    ['\\', 'u', '0', '0', hexDigitChar (c.toNat / 16), hexDigitChar (c.toNat % 16)]
  else [c]

/-- The characters of a quoted JSON string. -/
def strChars (s : String) : List Char :=
  '"' :: (s.data.flatMap escapeChar) ++ ['"']

/-- The pretty-printer's indentation: the two-space gap repeated per
depth level (`JSON.stringify(value, null, 2)`). -/
def indentChars (n : Nat) : List Char := List.replicate (2 * n) ' '

mutual

/-- `JSON.stringify(v, null, 2)` at nesting depth `ind`, as characters. -/
def jChars (ind : Nat) : Jval → List Char
  | Jval.jnull => ['n', 'u', 'l', 'l']
  | Jval.jbool true => ['t', 'r', 'u', 'e']
  | Jval.jbool false => ['f', 'a', 'l', 's', 'e']
  | Jval.jnum n => numChars n
  | Jval.jstr s => strChars s
  | Jval.jarr [] => ['[', ']']
  | Jval.jarr (x :: xs) =>
    ['[', '\n'] ++ indentChars (ind + 1) ++ jChars (ind + 1) x ++
      itemsChars (ind + 1) xs ++ ['\n'] ++ indentChars ind ++ [']']
  | Jval.jobj [] => [lbrace, rbrace]
  | Jval.jobj (m :: ms) =>
    [lbrace, '\n'] ++ indentChars (ind + 1) ++ memberChars (ind + 1) m ++
      membersChars (ind + 1) ms ++ ['\n'] ++ indentChars ind ++ [rbrace]

/-- The remaining array elements, each preceded by the `,\n` separator
and its indentation. -/
def itemsChars (ind : Nat) : List Jval → List Char
  | [] => []
  | x :: xs => [',', '\n'] ++ indentChars ind ++ jChars ind x ++ itemsChars ind xs

/-- One object member: quoted key, colon, space (the gap is nonempty),
value. -/
def memberChars (ind : Nat) (m : String × Jval) : List Char :=
  strChars m.1 ++ [':', ' '] ++ jChars ind m.2

/-- The remaining object members, each preceded by the separator. -/
def membersChars (ind : Nat) : List (String × Jval) → List Char
  | [] => []
  | m :: ms => [',', '\n'] ++ indentChars ind ++ memberChars ind m ++ membersChars ind ms

end

/-- `exportJSON` from `StrategyEditor.jsx`: the serialized text written
to the downloaded file, `JSON.stringify(strategy, null, 2)`. -/
def exportJSON (v : Jval) : String := String.mk (jChars 0 v)

/-! ### The parser (`JSON.parse`)

A recursive-descent parser over the JSON grammar: insignificant
whitespace, the three literals, strings with the escape set, numbers with
the no-leading-zero integer part, arrays and objects.  Nesting recursion
is bounded by a fuel argument; the entry point supplies the input length,
which the fuel-sufficiency lemma below shows is always enough. -/

/-- JSON insignificant whitespace. -/
def isWs (c : Char) : Bool := c = ' ' || c = '\n' || c = '\r' || c = '\t'

/-- Drop leading insignificant whitespace. -/
def skipWs : List Char → List Char
  | [] => []
  | c :: cs => if isWs c then skipWs cs else c :: cs

/-- Match an exact literal character sequence. -/
def expectChars : List Char → List Char → Option (List Char)
  | [], cs => some cs
  | _ :: _, [] => none
  | p :: ps, c :: cs => if c = p then expectChars ps cs else none

/-- The value of a hexadecimal digit (either case). -/
def hexVal (c : Char) : Option Nat :=
  if 48 ≤ c.toNat ∧ c.toNat ≤ 57 then some (c.toNat - 48)
  else if 97 ≤ c.toNat ∧ c.toNat ≤ 102 then some (c.toNat - 87)
  else if 65 ≤ c.toNat ∧ c.toNat ≤ 70 then some (c.toNat - 55)
  else none

/-- Prepend a decoded character to a string-body parse result. -/
def mapCons (c : Char) (r : Option (List Char × List Char)) :
    Option (List Char × List Char) :=
  r.map (fun p => (c :: p.1, p.2))

/-- The body of a JSON string after the opening quote: characters up to
the closing quote, decoding escapes; raw control characters are rejected,
as are `\u` escapes denoting lone surrogates (no such Unicode scalar
exists). -/
def strBody : List Char → Option (List Char × List Char)
  | [] => none
  | c :: cs =>
    if c = '"' then some ([], cs)
    else if c = '\\' then
      match cs with
      | [] => none
      | e :: cs2 =>
        if e = '"' then mapCons '"' (strBody cs2)
        else if e = '\\' then mapCons '\\' (strBody cs2)
        else if e = '/' then mapCons '/' (strBody cs2)
        else if e = 'b' then mapCons (Char.ofNat 8) (strBody cs2)
        else if e = 'f' then mapCons (Char.ofNat 12) (strBody cs2)
        else if e = 'n' then mapCons '\n' (strBody cs2)
        else if e = 'r' then mapCons (Char.ofNat 13) (strBody cs2)
        else if e = 't' then mapCons '\t' (strBody cs2)
        else if e = 'u' then
          match cs2 with
          | h1 :: h2 :: h3 :: h4 :: cs3 =>
            match hexVal h1, hexVal h2, hexVal h3, hexVal h4 with
            | some a, some b, some c3, some d4 =>
              if 55296 ≤ ((a * 16 + b) * 16 + c3) * 16 + d4 ∧
                 ((a * 16 + b) * 16 + c3) * 16 + d4 ≤ 57343 then none
              else mapCons (Char.ofNat (((a * 16 + b) * 16 + c3) * 16 + d4))
                     (strBody cs3)
            | _, _, _, _ => none
          | _ => none
        else none
    else if c.toNat < 32 then none
    else mapCons c (strBody cs)

/-- Decimal digit test. -/
def isDigitChar (c : Char) : Bool := 48 ≤ c.toNat && c.toNat ≤ 57

/-- Nonzero decimal digit test. -/
def isNzDigitChar (c : Char) : Bool := 49 ≤ c.toNat && c.toNat ≤ 57

/-- The digit value of a digit character. -/
def charDigit (c : Char) : Fin 10 := ⟨(c.toNat - 48) % 10, by omega⟩

/-- Greedily read decimal digits. -/
def readDigits : List Char → (List (Fin 10) × List Char)
  | [] => ([], [])
  | c :: rest =>
    if isDigitChar c then
      let p := readDigits rest
      (charDigit c :: p.1, p.2)
    else ([], c :: rest)

/-- The optional fraction: a point followed by at least one digit, or
nothing. -/
def readFrac : List Char → Option (List (Fin 10) × List Char)
  | [] => some ([], [])
  | c :: r =>
    if c = '.' then
      match readDigits r with
      | ([], _) => none
      | (d :: ds, r2) => some (d :: ds, r2)
    else some ([], c :: r)

/-- The digits of an exponent (at least one required). -/
def readExpDigits (sgn : Bool) (r : List Char) :
    Option (Option (Bool × List (Fin 10)) × List Char) :=
  match readDigits r with
  | ([], _) => none
  | (d :: ds, r2) => some (some (sgn, d :: ds), r2)

/-- The optional exponent: `e`/`E`, an optional sign, digits. -/
def readExp : List Char → Option (Option (Bool × List (Fin 10)) × List Char)
  | [] => some (none, [])
  | c :: r =>
    if c = 'e' ∨ c = 'E' then
      match r with
      | [] => none
      | c2 :: r2 =>
        if c2 = '+' then readExpDigits false r2
        else if c2 = '-' then readExpDigits true r2
        else readExpDigits false (c2 :: r2)
    else some (none, c :: r)

/-- The fraction and exponent of a numeral whose sign and integer part
are already read. -/
def numBodyTail (neg : Bool) (ip : List (Fin 10)) (cs : List Char) :
    Option (JNumber × List Char) :=
  match readFrac cs with
  | none => none
  | some (fp, r1) =>
    match readExp r1 with
    | none => none
    | some (ex, r2) => some ({ neg := neg, ip := ip, fp := fp, ex := ex }, r2)

/-- The integer part: a lone `0`, or a nonzero digit followed by digits
(JSON forbids leading zeros). -/
def numBodyInt (neg : Bool) : List Char → Option (JNumber × List Char)
  | [] => none
  | c :: r1 =>
    if c = '0' then numBodyTail neg [(0 : Fin 10)] r1
    else if isNzDigitChar c then
      let p := readDigits r1
      numBodyTail neg (charDigit c :: p.1) p.2
    else none

/-- A JSON number: optional minus sign, integer part, fraction,
exponent. -/
def numBody : List Char → Option (JNumber × List Char)
  | [] => none
  | c :: r => if c = '-' then numBodyInt true r else numBodyInt false (c :: r)

mutual

/-- Parse one JSON value, skipping leading whitespace.  `fuel` bounds the
recursion into nested structures. -/
def parseVal : Nat → List Char → Option (Jval × List Char)
  | 0, _ => none
  | Nat.succ fuel, cs =>
    match skipWs cs with
    | [] => none
    | c :: rest =>
      if c = 'n' then
        match expectChars ['u', 'l', 'l'] rest with
        | some r => some (Jval.jnull, r)
        | none => none
      else if c = 't' then
        match expectChars ['r', 'u', 'e'] rest with
        | some r => some (Jval.jbool true, r)
        | none => none
      else if c = 'f' then
        match expectChars ['a', 'l', 's', 'e'] rest with
        | some r => some (Jval.jbool false, r)
        | none => none
      else if c = '"' then
        match strBody rest with
        | some (s, r) => some (Jval.jstr (String.mk s), r)
        | none => none
      else if c = '[' then
        match skipWs rest with
        | [] => none
        | c2 :: r2 =>
          if c2 = ']' then some (Jval.jarr [], r2)
          else
            match parseItems fuel (c2 :: r2) with
            | some (xs, r3) =>
              match skipWs r3 with
              | c4 :: r4 => if c4 = ']' then some (Jval.jarr xs, r4) else none
              | [] => none
            | none => none
      else if c = lbrace then
        match skipWs rest with
        | [] => none
        | c2 :: r2 =>
          if c2 = rbrace then some (Jval.jobj [], r2)
          else
            match parseMembers fuel (c2 :: r2) with
            | some (ms, r3) =>
              match skipWs r3 with
              | c4 :: r4 => if c4 = rbrace then some (Jval.jobj ms, r4) else none
              | [] => none
            | none => none
      else
        match numBody (c :: rest) with
        | some (n, r) => some (Jval.jnum n, r)
        | none => none

/-- Parse a nonempty comma-separated element sequence. -/
def parseItems : Nat → List Char → Option (List Jval × List Char)
  | 0, _ => none
  | Nat.succ fuel, cs =>
    match parseVal fuel cs with
    | some (v, r) =>
      match skipWs r with
      | [] => some ([v], r)
      | c :: r2 =>
        if c = ',' then
          match parseItems fuel r2 with
          | some (vs, r3) => some (v :: vs, r3)
          | none => none
        else some ([v], r)
    | none => none

/-- Parse a nonempty comma-separated member sequence. -/
def parseMembers : Nat → List Char → Option (List (String × Jval) × List Char)
  | 0, _ => none
  | Nat.succ fuel, cs =>
    match skipWs cs with
    | [] => none
    | c :: rest =>
      if c = '"' then
        match strBody rest with
        | some (k, r) =>
          match skipWs r with
          | [] => none
          | c2 :: r2 =>
            if c2 = ':' then
              match parseVal fuel r2 with
              | some (v, r3) =>
                match skipWs r3 with
                | [] => some ([(String.mk k, v)], r3)
                | c4 :: r4 =>
                  if c4 = ',' then
                    match parseMembers fuel r4 with
                    | some (ms, r5) => some ((String.mk k, v) :: ms, r5)
                    | none => none
                  else some ([(String.mk k, v)], r3)
              | none => none
            else none
        | none => none
      else none

end

/-- `JSON.parse` on a character list: parse one value, then require only
trailing whitespace. -/
def parseJson (cs : List Char) : Option Jval :=
  match parseVal (cs.length + 1) cs with
  | some (v, rest) => if skipWs rest = [] then some v else none
  | none => none

/-- `importJSON` from `StrategyEditor.jsx`: `JSON.parse` of the file
text (`onChange(data)` passes the parsed value through unchanged). -/
def importJSON (s : String) : Option Jval := parseJson s.data

/-! ### Round-trip lemmas: numbers

`numStop rest` expresses that the characters following a printed numeral
cannot extend it; every context in which the printer places a numeral
satisfies it. -/

/-- The suffix cannot extend a numeral: no leading digit, point or
exponent marker. -/
def numStop : List Char → Prop
  | [] => True
  | c :: _ => isDigitChar c = false ∧ c ≠ '.' ∧ c ≠ 'e' ∧ c ≠ 'E'

/-! ### Round-trip lemmas: whitespace, literals, digits, strings -/

theorem skipWs_cons_not_ws {c : Char} (h : isWs c = false) (cs : List Char) :
    skipWs (c :: cs) = c :: cs := by
  simp [skipWs, h]

theorem skipWs_append_ws {a : List Char} (b : List Char)
    (h : ∀ c ∈ a, isWs c = true) : skipWs (a ++ b) = skipWs b := by
  induction a with
  | nil => rfl
  | cons c a ih =>
    have hc : isWs c = true := h c (List.mem_cons_self c a)
    simp only [List.cons_append, skipWs, hc, if_pos]
    exact ih (fun c hc' => h c (List.mem_cons_of_mem _ hc'))

theorem indentChars_ws (n : Nat) : ∀ c ∈ indentChars n, isWs c = true := by
  intro c hc
  have : c = ' ' := List.eq_of_mem_replicate hc
  subst this
  decide

/-- Strip a newline plus indentation in front of any suffix. -/
theorem skipWs_nl_indent (n : Nat) (b : List Char) :
    skipWs ('\n' :: (indentChars n ++ b)) = skipWs b := by
  have h : ∀ c ∈ '\n' :: indentChars n, isWs c = true := by
    intro c hc
    rcases List.mem_cons.1 hc with rfl | hc
    · decide
    · exact indentChars_ws n c hc
  simpa using skipWs_append_ws (a := '\n' :: indentChars n) b h

theorem expectChars_append (ps rest : List Char) :
    expectChars ps (ps ++ rest) = some rest := by
  induction ps with
  | nil => rfl
  | cons p ps ih => simp [expectChars, ih]

theorem digitChar_toNat (d : Fin 10) : (digitChar d).toNat = 48 + d.val := by
  fin_cases d <;> rfl

theorem digitChar_bounds (d : Fin 10) :
    48 ≤ (digitChar d).toNat ∧ (digitChar d).toNat ≤ 57 := by
  rw [digitChar_toNat]
  omega

/-- Characters are equal when their code points are. -/
theorem char_eq_of_toNat {c d : Char} (h : c.toNat = d.toNat) : c = d :=
  Char.ext (UInt32.ext (by simpa [Char.toNat] using h))

theorem char_toNat_of_eq {c d : Char} (h : c = d) : c.toNat = d.toNat := by
  rw [h]

/-- `headNotDigit rest` holds when `rest` does not start with a decimal
digit, so greedy digit reading stops at its front. -/
def headNotDigit : List Char → Prop
  | [] => True
  | c :: _ => isDigitChar c = false

theorem isDigitChar_digitChar (d : Fin 10) : isDigitChar (digitChar d) = true := by
  have := digitChar_bounds d
  simp only [isDigitChar, Bool.and_eq_true, decide_eq_true_eq]
  omega

theorem charDigit_digitChar (d : Fin 10) : charDigit (digitChar d) = d := by
  apply Fin.ext
  have hlt := d.isLt
  simp only [charDigit, digitChar_toNat]
  omega

theorem readDigits_stop {rest : List Char} (h : headNotDigit rest) :
    readDigits rest = ([], rest) := by
  cases rest with
  | nil => rfl
  | cons c r =>
    have hc : isDigitChar c = false := h
    simp [readDigits, hc]

theorem readDigits_digits (ds : List (Fin 10)) {rest : List Char}
    (h : headNotDigit rest) :
    readDigits (digitsChars ds ++ rest) = (ds, rest) := by
  induction ds with
  | nil => simpa [digitsChars] using readDigits_stop h
  | cons d ds ih =>
    simp only [digitsChars, List.map_cons, List.cons_append, readDigits,
      isDigitChar_digitChar, if_pos, List.append_eq]
    rw [show List.map digitChar ds = digitsChars ds from rfl, ih,
      charDigit_digitChar]

theorem hexVal_hexDigitChar {n : Nat} (h : n < 16) :
    hexVal (hexDigitChar n) = some n := by
  interval_cases n <;> rfl

/-- One escaped character decodes back. -/
theorem strBody_escape_step (c : Char) (tail : List Char) :
    strBody (escapeChar c ++ tail) = mapCons c (strBody tail) := by
  by_cases h1 : c = '"'
  · subst h1
    rw [show escapeChar '"' = ['\\', '"'] by decide]
    simp only [List.cons_append, List.nil_append]
    conv_lhs => rw [strBody.eq_def]
    simp only []
    rw [if_neg (by decide : ¬ ('\\' : Char) = '"'), if_pos trivial,
      if_pos trivial]
  by_cases h2 : c = '\\'
  · subst h2
    rw [show escapeChar '\\' = ['\\', '\\'] by decide]
    simp only [List.cons_append, List.nil_append]
    conv_lhs => rw [strBody.eq_def]
    simp only []
    rw [if_neg (by decide : ¬ ('\\' : Char) = '"'), if_pos trivial,
      if_neg (by decide : ¬ ('\\' : Char) = '"'), if_pos trivial]
  by_cases h3 : c.toNat = 8
  · have hc : c = Char.ofNat 8 := char_eq_of_toNat (by rw [h3]; rfl)
    subst hc
    rw [show escapeChar (Char.ofNat 8) = ['\\', 'b'] by decide]
    simp only [List.cons_append, List.nil_append]
    conv_lhs => rw [strBody.eq_def]
    simp only []
    rw [if_neg (by decide : ¬ ('\\' : Char) = '"'), if_pos trivial,
      if_neg (by decide : ¬ ('b' : Char) = '"'),
      if_neg (by decide : ¬ ('b' : Char) = '\\'),
      if_neg (by decide : ¬ ('b' : Char) = '/'),
      if_pos trivial]
  by_cases h4 : c.toNat = 9
  · have hc : c = '\t' := char_eq_of_toNat (by rw [h4]; rfl)
    subst hc
    rw [show escapeChar '\t' = ['\\', 't'] by decide]
    simp only [List.cons_append, List.nil_append]
    conv_lhs => rw [strBody.eq_def]
    simp only []
    rw [if_neg (by decide : ¬ ('\\' : Char) = '"'), if_pos trivial,
      if_neg (by decide : ¬ ('t' : Char) = '"'),
      if_neg (by decide : ¬ ('t' : Char) = '\\'),
      if_neg (by decide : ¬ ('t' : Char) = '/'),
      if_neg (by decide : ¬ ('t' : Char) = 'b'),
      if_neg (by decide : ¬ ('t' : Char) = 'f'),
      if_neg (by decide : ¬ ('t' : Char) = 'n'),
      if_neg (by decide : ¬ ('t' : Char) = 'r'),
      if_pos trivial]
  by_cases h5 : c.toNat = 10
  · have hc : c = '\n' := char_eq_of_toNat (by rw [h5]; rfl)
    subst hc
    rw [show escapeChar '\n' = ['\\', 'n'] by decide]
    simp only [List.cons_append, List.nil_append]
    conv_lhs => rw [strBody.eq_def]
    simp only []
    rw [if_neg (by decide : ¬ ('\\' : Char) = '"'), if_pos trivial,
      if_neg (by decide : ¬ ('n' : Char) = '"'),
      if_neg (by decide : ¬ ('n' : Char) = '\\'),
      if_neg (by decide : ¬ ('n' : Char) = '/'),
      if_neg (by decide : ¬ ('n' : Char) = 'b'),
      if_neg (by decide : ¬ ('n' : Char) = 'f'),
      if_pos trivial]
  by_cases h6 : c.toNat = 12
  · have hc : c = Char.ofNat 12 := char_eq_of_toNat (by rw [h6]; rfl)
    subst hc
    rw [show escapeChar (Char.ofNat 12) = ['\\', 'f'] by decide]
    simp only [List.cons_append, List.nil_append]
    conv_lhs => rw [strBody.eq_def]
    simp only []
    rw [if_neg (by decide : ¬ ('\\' : Char) = '"'), if_pos trivial,
      if_neg (by decide : ¬ ('f' : Char) = '"'),
      if_neg (by decide : ¬ ('f' : Char) = '\\'),
      if_neg (by decide : ¬ ('f' : Char) = '/'),
      if_neg (by decide : ¬ ('f' : Char) = 'b'),
      if_pos trivial]
  by_cases h7 : c.toNat = 13
  · have hc : c = Char.ofNat 13 := char_eq_of_toNat (by rw [h7]; rfl)
    subst hc
    rw [show escapeChar (Char.ofNat 13) = ['\\', 'r'] by decide]
    simp only [List.cons_append, List.nil_append]
    conv_lhs => rw [strBody.eq_def]
    simp only []
    rw [if_neg (by decide : ¬ ('\\' : Char) = '"'), if_pos trivial,
      if_neg (by decide : ¬ ('r' : Char) = '"'),
      if_neg (by decide : ¬ ('r' : Char) = '\\'),
      if_neg (by decide : ¬ ('r' : Char) = '/'),
      if_neg (by decide : ¬ ('r' : Char) = 'b'),
      if_neg (by decide : ¬ ('r' : Char) = 'f'),
      if_neg (by decide : ¬ ('r' : Char) = 'n'),
      if_pos trivial]
  by_cases h8 : c.toNat < 32
  · -- the \u00xx escape for the remaining control characters
    rw [escapeChar, if_neg h1, if_neg h2, if_neg h3, if_neg h4, if_neg h5,
      if_neg h6, if_neg h7, if_pos h8]
    simp only [List.cons_append, List.nil_append]
    conv_lhs => rw [strBody.eq_def]
    simp only []
    rw [if_neg (by decide : ¬ ('\\' : Char) = '"'), if_pos trivial,
      if_neg (by decide : ¬ ('u' : Char) = '"'),
      if_neg (by decide : ¬ ('u' : Char) = '\\'),
      if_neg (by decide : ¬ ('u' : Char) = '/'),
      if_neg (by decide : ¬ ('u' : Char) = 'b'),
      if_neg (by decide : ¬ ('u' : Char) = 'f'),
      if_neg (by decide : ¬ ('u' : Char) = 'n'),
      if_neg (by decide : ¬ ('u' : Char) = 'r'),
      if_neg (by decide : ¬ ('u' : Char) = 't'),
      if_pos trivial]
    rw [show hexVal '0' = some 0 by decide,
      hexVal_hexDigitChar (show c.toNat / 16 < 16 by omega),
      hexVal_hexDigitChar (show c.toNat % 16 < 16 by omega)]
    simp only []
    rw [if_neg (show ¬ (55296 ≤ ((0 * 16 + 0) * 16 + c.toNat / 16) * 16 +
        c.toNat % 16 ∧ ((0 * 16 + 0) * 16 + c.toNat / 16) * 16 +
        c.toNat % 16 ≤ 57343) by omega)]
    rw [show ((0 * 16 + 0) * 16 + c.toNat / 16) * 16 + c.toNat % 16
        = c.toNat by omega, Char.ofNat_toNat]
  · -- literal character
    rw [escapeChar, if_neg h1, if_neg h2, if_neg h3, if_neg h4, if_neg h5,
      if_neg h6, if_neg h7, if_neg h8]
    simp only [List.cons_append, List.nil_append]
    conv_lhs => rw [strBody.eq_def]
    simp only []
    rw [if_neg h1, if_neg h2, if_neg (by omega : ¬ c.toNat < 32)]

/-- A fully escaped string body followed by the closing quote parses back
to exactly the original characters. -/
theorem strBody_flatMap (cs : List Char) (rest : List Char) :
    strBody (cs.flatMap escapeChar ++ '"' :: rest) = some (cs, rest) := by
  induction cs with
  | nil =>
    simp only [List.flatMap_nil, List.nil_append]
    conv_lhs => rw [strBody.eq_def]
    simp only []
    rw [if_pos trivial]
  | cons c cs ih =>
    rw [List.flatMap_cons, List.append_assoc, strBody_escape_step, ih]
    rfl

/-! ### Number parsing round trip -/

theorem numStop_headNotDigit {rest : List Char} (h : numStop rest) :
    headNotDigit rest := by
  cases rest with
  | nil => trivial
  | cons c r => exact h.1

theorem headNotDigit_of_expChars (ex : Option (Bool × List (Fin 10)))
    {rest : List Char} (h : numStop rest) :
    headNotDigit (expChars ex ++ rest) := by
  cases ex with
  | none => exact numStop_headNotDigit h
  | some p =>
    show isDigitChar 'e' = false
    decide

theorem readFrac_skip {cs : List Char}
    (h : cs = [] ∨ ∃ c r, cs = c :: r ∧ c ≠ '.') :
    readFrac cs = some ([], cs) := by
  rcases h with rfl | ⟨c, r, rfl, hc⟩
  · rfl
  · simp [readFrac, hc]

theorem readFrac_digits (f : Fin 10) (fs : List (Fin 10)) {exr : List Char}
    (h : headNotDigit exr) :
    readFrac ('.' :: (digitsChars (f :: fs) ++ exr)) = some (f :: fs, exr) := by
  conv_lhs => rw [readFrac.eq_def]
  simp only []
  rw [if_pos trivial, readDigits_digits (f :: fs) h]

theorem readExp_skip {cs : List Char}
    (h : cs = [] ∨ ∃ c r, cs = c :: r ∧ c ≠ 'e' ∧ c ≠ 'E') :
    readExp cs = some (none, cs) := by
  rcases h with rfl | ⟨c, r, rfl, hc, hc2⟩
  · rfl
  · have : ¬ (c = 'e' ∨ c = 'E') := by
      rintro (rfl | rfl)
      · exact hc rfl
      · exact hc2 rfl
    simp [readExp, this]

theorem readExp_digits (es : Bool) (d : Fin 10) (ds : List (Fin 10))
    {rest : List Char} (h : headNotDigit rest) :
    readExp ('e' :: (if es then '-' else '+') ::
        (digitsChars (d :: ds) ++ rest))
      = some (some (es, d :: ds), rest) := by
  cases es with
  | false =>
    simp only [Bool.false_eq_true, if_false]
    conv_lhs => rw [readExp.eq_def]
    simp only []
    rw [if_pos (Or.inl trivial), if_pos trivial, readExpDigits,
      readDigits_digits (d :: ds) h]
  | true =>
    simp only [if_true]
    conv_lhs => rw [readExp.eq_def]
    simp only []
    rw [if_pos (Or.inl trivial), if_neg (by decide : ¬ ('-' : Char) = '+'),
      if_pos trivial, readExpDigits, readDigits_digits (d :: ds) h]

theorem expChars_roundtrip (ex : Option (Bool × List (Fin 10)))
    {rest : List Char} (hex : match ex with
      | none => True
      | some p => p.2 ≠ []) (hstop : numStop rest) :
    readExp (expChars ex ++ rest) = some (ex, rest) := by
  cases ex with
  | none =>
    rw [expChars, List.nil_append]
    apply readExp_skip
    cases rest with
    | nil => exact Or.inl rfl
    | cons c r => exact Or.inr ⟨c, r, rfl, hstop.2.2.1, hstop.2.2.2⟩
  | some p =>
    obtain ⟨es, ds⟩ := p
    cases ds with
    | nil => exact absurd rfl hex
    | cons d ds' =>
      rw [expChars]
      simp only [List.cons_append, List.append_assoc]
      exact readExp_digits es d ds' (numStop_headNotDigit hstop)

theorem numBodyTail_chars (neg : Bool) (ip fp : List (Fin 10))
    (ex : Option (Bool × List (Fin 10))) {rest : List Char}
    (hex : match ex with
      | none => True
      | some p => p.2 ≠ []) (hstop : numStop rest) :
    numBodyTail neg ip (fracChars fp ++ expChars ex ++ rest)
      = some ({ neg := neg, ip := ip, fp := fp, ex := ex }, rest) := by
  cases fp with
  | nil =>
    rw [fracChars, List.nil_append, numBodyTail]
    have hfrac : readFrac (expChars ex ++ rest) = some ([], expChars ex ++ rest) := by
      apply readFrac_skip
      cases hx : ex with
      | none =>
        rw [expChars, List.nil_append]
        cases rest with
        | nil => exact Or.inl rfl
        | cons c r => exact Or.inr ⟨c, r, rfl, hstop.2.1⟩
      | some p =>
        obtain ⟨es, ds⟩ := p
        rw [expChars]
        exact Or.inr ⟨'e', _, rfl, by decide⟩
    rw [hfrac]
    simp only []
    rw [expChars_roundtrip ex hex hstop]
  | cons f fs =>
    rw [fracChars, numBodyTail]
    simp only [List.cons_append, List.append_assoc]
    rw [readFrac_digits f fs (headNotDigit_of_expChars ex hstop)]
    simp only []
    rw [expChars_roundtrip ex hex hstop]

theorem digitChar_ne_zero_iff (d : Fin 10) : digitChar d ≠ '0' ↔ d ≠ 0 := by
  constructor
  · intro h hd
    subst hd
    exact h rfl
  · intro h he
    apply h
    apply Fin.ext
    have := char_toNat_of_eq he
    rw [digitChar_toNat] at this
    simpa using this

theorem isNzDigitChar_digitChar {d : Fin 10} (h : d ≠ 0) :
    isNzDigitChar (digitChar d) = true := by
  have hv : 1 ≤ d.val := by
    rcases Nat.eq_zero_or_pos d.val with h0 | h1
    · exact absurd (Fin.ext h0) h
    · exact h1
  have := d.isLt
  simp only [isNzDigitChar, digitChar_toNat, Bool.and_eq_true, decide_eq_true_eq]
  omega

theorem numBodyInt_chars (neg : Bool) (ip : List (Fin 10))
    (hip : ip ≠ []) (hlead : ip.length = 1 ∨ ip.head? ≠ some 0)
    {tail : List Char} (htail : headNotDigit tail) :
    numBodyInt neg (digitsChars ip ++ tail) = numBodyTail neg ip tail := by
  cases ip with
  | nil => exact absurd rfl hip
  | cons d ds =>
    by_cases hd : d = 0
    · subst hd
      have hds : ds = [] := by
        rcases hlead with h1 | h1
        · simpa using h1
        · exact absurd (rfl : (0 :: ds : List (Fin 10)).head? = some 0) h1
      subst hds
      rw [show digitsChars [(0 : Fin 10)] = ['0'] by decide]
      simp only [List.cons_append, List.nil_append]
      rw [numBodyInt, if_pos rfl]
    · have hne : digitChar d ≠ '0' := (digitChar_ne_zero_iff d).2 hd
      simp only [digitsChars, List.map_cons, List.cons_append]
      rw [numBodyInt, if_neg hne, if_pos (isNzDigitChar_digitChar hd)]
      rw [show List.map digitChar ds = digitsChars ds from rfl]
      rw [readDigits_digits ds htail, charDigit_digitChar]

theorem digitChar_ne_dash (d : Fin 10) : digitChar d ≠ '-' := by
  intro h
  have h2 := char_toNat_of_eq h
  rw [digitChar_toNat, show ('-').toNat = 45 by decide] at h2
  omega

theorem numWF_parts {n : JNumber} (h : numWF n = true) :
    n.ip ≠ [] ∧ (n.ip.length = 1 ∨ n.ip.head? ≠ some 0) ∧
      (match n.ex with
        | none => True
        | some p => p.2 ≠ []) := by
  obtain ⟨neg, ip, fp, ex⟩ := n
  refine ⟨?_, ?_, ?_⟩
  · intro he
    subst he
    simp [numWF] at h
  · simp only [numWF, Bool.and_eq_true, Bool.or_eq_true, beq_iff_eq,
      Bool.not_eq_true', beq_eq_false_iff_ne, ne_eq] at h
    exact h.1.2
  · cases ex with
    | none => trivial
    | some p =>
      obtain ⟨es, ds⟩ := p
      show ds ≠ []
      intro hd
      subst hd
      simp [numWF] at h

/-- A printed numeral parses back exactly, leaving the suffix alone. -/
theorem numBody_chars {n : JNumber} {rest : List Char}
    (hwf : numWF n = true) (hstop : numStop rest) :
    numBody (numChars n ++ rest) = some (n, rest) := by
  obtain ⟨hip, hlead, hex⟩ := numWF_parts hwf
  obtain ⟨neg, ip, fp, ex⟩ := n
  have htail : headNotDigit (fracChars fp ++ expChars ex ++ rest) := by
    cases fp with
    | nil =>
      rw [fracChars, List.nil_append]
      exact headNotDigit_of_expChars ex hstop
    | cons f fs =>
      show isDigitChar '.' = false
      decide
  have hmain : numBodyInt neg
      (digitsChars ip ++ (fracChars fp ++ expChars ex ++ rest))
        = some ({ neg := neg, ip := ip, fp := fp, ex := ex }, rest) := by
    rw [numBodyInt_chars neg ip hip hlead htail,
      numBodyTail_chars neg ip fp ex hex hstop]
  cases neg with
  | false =>
    rw [numChars]
    simp only [Bool.false_eq_true, if_false, List.nil_append, List.append_assoc]
    cases hipc : ip with
    | nil => exact absurd hipc hip
    | cons d ds =>
      subst hipc
      simp only [digitsChars, List.map_cons, List.cons_append]
      rw [numBody, if_neg (digitChar_ne_dash d)]
      have := hmain
      simp only [digitsChars, List.map_cons, List.cons_append,
        List.append_assoc] at this
      exact this
  | true =>
    rw [numChars]
    simp only [if_true, List.cons_append, List.nil_append, List.append_assoc]
    rw [numBody, if_pos rfl]
    simpa [List.append_assoc] using hmain

/-! ### Whitespace elimination in front of the parsers -/

theorem parseVal_ws (fuel : Nat) {a : List Char} (b : List Char)
    (h : ∀ c ∈ a, isWs c = true) :
    parseVal fuel (a ++ b) = parseVal fuel b := by
  cases fuel with
  | zero => rfl
  | succ fuel =>
    conv_lhs => rw [parseVal.eq_def]
    conv_rhs => rw [parseVal.eq_def]
    simp only []
    rw [skipWs_append_ws b h]

theorem parseItems_ws (fuel : Nat) {a : List Char} (b : List Char)
    (h : ∀ c ∈ a, isWs c = true) :
    parseItems fuel (a ++ b) = parseItems fuel b := by
  cases fuel with
  | zero => rfl
  | succ fuel =>
    conv_lhs => rw [parseItems.eq_def]
    conv_rhs => rw [parseItems.eq_def]
    simp only []
    rw [parseVal_ws fuel b h]

theorem parseMembers_ws (fuel : Nat) {a : List Char} (b : List Char)
    (h : ∀ c ∈ a, isWs c = true) :
    parseMembers fuel (a ++ b) = parseMembers fuel b := by
  cases fuel with
  | zero => rfl
  | succ fuel =>
    conv_lhs => rw [parseMembers.eq_def]
    conv_rhs => rw [parseMembers.eq_def]
    simp only []
    rw [skipWs_append_ws b h]

theorem nl_indent_ws (n : Nat) : ∀ c ∈ '\n' :: indentChars n, isWs c = true := by
  intro c hc
  rcases List.mem_cons.1 hc with rfl | hc
  · decide
  · exact indentChars_ws n c hc

/-! ### First characters of printed values -/

theorem char_ne_of_toNat_ne {c d : Char} (h : c.toNat ≠ d.toNat) : c ≠ d :=
  fun he => h (char_toNat_of_eq he)

theorem isWs_eq_false_of_toNat {c : Char} (h : 33 ≤ c.toNat) : isWs c = false := by
  simp only [isWs, Bool.or_eq_false_iff, decide_eq_false_iff_not]
  refine ⟨⟨⟨?_, ?_⟩, ?_⟩, ?_⟩ <;>
    · intro he
      rw [he] at h
      revert h
      decide

/-- The first character of a printed value: it exists, is not whitespace,
and is not a closing bracket, closing brace, or comma. -/
theorem jChars_head (ind : Nat) (v : Jval) (hwf : wfB v = true) :
    ∃ c cs', jChars ind v = c :: cs' ∧ isWs c = false ∧
      c ≠ ']' ∧ c ≠ rbrace ∧ c ≠ ',' := by
  cases v with
  | jnull => exact ⟨'n', _, rfl, by decide, by decide, by decide, by decide⟩
  | jbool b =>
    cases b with
    | true => exact ⟨'t', _, rfl, by decide, by decide, by decide, by decide⟩
    | false => exact ⟨'f', _, rfl, by decide, by decide, by decide, by decide⟩
  | jstr s => exact ⟨'"', _, rfl, by decide, by decide, by decide, by decide⟩
  | jarr xs =>
    cases xs with
    | nil => exact ⟨'[', _, rfl, by decide, by decide, by decide, by decide⟩
    | cons x xs => exact ⟨'[', _, rfl, by decide, by decide, by decide, by decide⟩
  | jobj ms =>
    cases ms with
    | nil => exact ⟨lbrace, _, rfl, by decide, by decide, by decide, by decide⟩
    | cons m ms => exact ⟨lbrace, _, rfl, by decide, by decide, by decide, by decide⟩
  | jnum n =>
    obtain ⟨hip, hlead, hex⟩ := numWF_parts (by simpa [wfB] using hwf)
    obtain ⟨neg, ip, fp, ex⟩ := n
    cases neg with
    | true =>
      refine ⟨'-', digitsChars ip ++ fracChars fp ++ expChars ex, ?_, by decide,
        by decide, by decide, by decide⟩
      simp [jChars, numChars, List.append_assoc]
    | false =>
      cases ip with
      | nil => exact absurd rfl hip
      | cons d ds =>
        have hb := digitChar_bounds d
        refine ⟨digitChar d, digitsChars ds ++ fracChars fp ++ expChars ex, ?_,
          isWs_eq_false_of_toNat (by omega), ?_, ?_, ?_⟩
        · simp [jChars, numChars, digitsChars, List.append_assoc]
        · exact char_ne_of_toNat_ne (by rw [show (']').toNat = 93 by decide]; omega)
        · exact char_ne_of_toNat_ne (by rw [show rbrace.toNat = 125 by decide]; omega)
        · exact char_ne_of_toNat_ne (by rw [show (',').toNat = 44 by decide]; omega)

/-- A printed value's first character fails every keyword/string/array/
object dispatch test of `parseVal`, for numerals. -/
theorem numHead_dispatch {c : Char}
    (h : c.toNat = 45 ∨ (48 ≤ c.toNat ∧ c.toNat ≤ 57)) :
    c ≠ 'n' ∧ c ≠ 't' ∧ c ≠ 'f' ∧ c ≠ '"' ∧ c ≠ '[' ∧ c ≠ lbrace := by
  refine ⟨?_, ?_, ?_, ?_, ?_, ?_⟩
  · exact char_ne_of_toNat_ne (by rw [show ('n').toNat = 110 by decide]; omega)
  · exact char_ne_of_toNat_ne (by rw [show ('t').toNat = 116 by decide]; omega)
  · exact char_ne_of_toNat_ne (by rw [show ('f').toNat = 102 by decide]; omega)
  · exact char_ne_of_toNat_ne (by rw [show ('"').toNat = 34 by decide]; omega)
  · exact char_ne_of_toNat_ne (by rw [show ('[').toNat = 91 by decide]; omega)
  · exact char_ne_of_toNat_ne (by rw [show lbrace.toNat = 123 by decide]; omega)

/-- A list whose whitespace-free head is a known non-numeral character
satisfies `numStop`. -/
theorem numStop_of_skipWs {T : List Char} {c : Char} {u : List Char}
    (h : skipWs T = c :: u) (hc : isDigitChar c = false ∧ c ≠ '.' ∧
      c ≠ 'e' ∧ c ≠ 'E') : numStop T := by
  cases T with
  | nil => trivial
  | cons t ts =>
    by_cases hw : isWs t = true
    · have ht : t = ' ' ∨ t = '\n' ∨ t = '\r' ∨ t = '\t' := by
        simpa [isWs, Bool.or_eq_true, decide_eq_true_eq, or_assoc] using hw
      rcases ht with rfl | rfl | rfl | rfl <;>
        exact ⟨by decide, by decide, by decide, by decide⟩
    · rw [skipWs, if_neg hw] at h
      cases h
      exact hc

/-! ### `parseVal` on each printed constructor -/

theorem parseVal_null (fuel ind : Nat) (rest : List Char) :
    parseVal (fuel + 1) (jChars ind Jval.jnull ++ rest)
      = some (Jval.jnull, rest) := by
  simp only [jChars, List.cons_append, List.nil_append]
  conv_lhs => rw [parseVal.eq_def]
  simp only []
  rw [skipWs_cons_not_ws (by decide)]
  simp only []
  rw [if_pos trivial,
    show expectChars ['u', 'l', 'l'] ('u' :: 'l' :: 'l' :: rest) = some rest from
      expectChars_append _ _]

theorem parseVal_true (fuel ind : Nat) (rest : List Char) :
    parseVal (fuel + 1) (jChars ind (Jval.jbool true) ++ rest)
      = some (Jval.jbool true, rest) := by
  simp only [jChars, List.cons_append, List.nil_append]
  conv_lhs => rw [parseVal.eq_def]
  simp only []
  rw [skipWs_cons_not_ws (by decide)]
  simp only []
  rw [if_neg (by decide : ¬ ('t' : Char) = 'n'), if_pos trivial,
    show expectChars ['r', 'u', 'e'] ('r' :: 'u' :: 'e' :: rest) = some rest from
      expectChars_append _ _]

theorem parseVal_false (fuel ind : Nat) (rest : List Char) :
    parseVal (fuel + 1) (jChars ind (Jval.jbool false) ++ rest)
      = some (Jval.jbool false, rest) := by
  simp only [jChars, List.cons_append, List.nil_append]
  conv_lhs => rw [parseVal.eq_def]
  simp only []
  rw [skipWs_cons_not_ws (by decide)]
  simp only []
  rw [if_neg (by decide : ¬ ('f' : Char) = 'n'),
    if_neg (by decide : ¬ ('f' : Char) = 't'), if_pos trivial,
    show expectChars ['a', 'l', 's', 'e'] ('a' :: 'l' :: 's' :: 'e' :: rest)
        = some rest from expectChars_append _ _]

theorem parseVal_str (fuel ind : Nat) (s : String) (rest : List Char) :
    parseVal (fuel + 1) (jChars ind (Jval.jstr s) ++ rest)
      = some (Jval.jstr s, rest) := by
  simp only [jChars, strChars, List.cons_append, List.append_assoc,
    List.singleton_append, List.nil_append]
  conv_lhs => rw [parseVal.eq_def]
  simp only []
  rw [skipWs_cons_not_ws (by decide)]
  simp only []
  rw [if_neg (by decide : ¬ ('"' : Char) = 'n'),
    if_neg (by decide : ¬ ('"' : Char) = 't'),
    if_neg (by decide : ¬ ('"' : Char) = 'f'), if_pos trivial,
    strBody_flatMap]

theorem parseVal_num (fuel ind : Nat) {n : JNumber} {rest : List Char}
    (hwf : numWF n = true) (hstop : numStop rest) :
    parseVal (fuel + 1) (jChars ind (Jval.jnum n) ++ rest)
      = some (Jval.jnum n, rest) := by
  have hb := numBody_chars hwf hstop
  obtain ⟨hip, hlead, hex⟩ := numWF_parts hwf
  obtain ⟨neg, ip, fp, ex⟩ := n
  cases neg with
  | true =>
    simp only [jChars, numChars, if_true, List.cons_append, List.nil_append,
      List.append_assoc] at hb ⊢
    conv_lhs => rw [parseVal.eq_def]
    simp only []
    rw [skipWs_cons_not_ws (by decide)]
    simp only []
    rw [if_neg (by decide : ¬ ('-' : Char) = 'n'),
      if_neg (by decide : ¬ ('-' : Char) = 't'),
      if_neg (by decide : ¬ ('-' : Char) = 'f'),
      if_neg (by decide : ¬ ('-' : Char) = '"'),
      if_neg (by decide : ¬ ('-' : Char) = '['),
      if_neg (by decide : ('-' : Char) = lbrace → False), hb]
  | false =>
    cases ip with
    | nil => exact absurd rfl hip
    | cons d ds =>
      have hbd := digitChar_bounds d
      obtain ⟨g1, g2, g3, g4, g5, g6⟩ := numHead_dispatch (Or.inr hbd)
      simp only [jChars, numChars, Bool.false_eq_true, if_false,
        List.nil_append, digitsChars, List.map_cons, List.cons_append,
        List.append_assoc] at hb ⊢
      conv_lhs => rw [parseVal.eq_def]
      simp only []
      rw [skipWs_cons_not_ws (isWs_eq_false_of_toNat (by omega))]
      simp only []
      rw [if_neg g1, if_neg g2, if_neg g3, if_neg g4, if_neg g5, if_neg g6, hb]

theorem parseVal_arr_nil (fuel ind : Nat) (rest : List Char) :
    parseVal (fuel + 1) (jChars ind (Jval.jarr []) ++ rest)
      = some (Jval.jarr [], rest) := by
  simp only [jChars, List.cons_append, List.nil_append]
  conv_lhs => rw [parseVal.eq_def]
  simp only []
  rw [skipWs_cons_not_ws (by decide)]
  simp only []
  rw [if_neg (by decide : ¬ ('[' : Char) = 'n'),
    if_neg (by decide : ¬ ('[' : Char) = 't'),
    if_neg (by decide : ¬ ('[' : Char) = 'f'),
    if_neg (by decide : ¬ ('[' : Char) = '"'), if_pos trivial]
  rw [skipWs_cons_not_ws (by decide)]
  simp only []
  rw [if_pos trivial]

theorem parseVal_obj_nil (fuel ind : Nat) (rest : List Char) :
    parseVal (fuel + 1) (jChars ind (Jval.jobj []) ++ rest)
      = some (Jval.jobj [], rest) := by
  simp only [jChars, List.cons_append, List.nil_append]
  conv_lhs => rw [parseVal.eq_def]
  simp only []
  rw [skipWs_cons_not_ws (by decide)]
  simp only []
  rw [if_neg (by decide : lbrace = 'n' → False),
    if_neg (by decide : lbrace = 't' → False),
    if_neg (by decide : lbrace = 'f' → False),
    if_neg (by decide : lbrace = '"' → False),
    if_neg (by decide : lbrace = '[' → False), if_pos trivial]
  rw [skipWs_cons_not_ws (by decide)]
  simp only []
  rw [if_pos trivial]

/-- Parsing a printed nonempty array, given that its element sequence
parses. -/
theorem parseVal_arr_cons (fuel ind : Nat) (x : Jval) (xs : List Jval)
    (rest : List Char) (hwfx : wfB x = true)
    (hitems : parseItems fuel
        (jChars (ind + 1) x ++ (itemsChars (ind + 1) xs ++
          ('\n' :: (indentChars ind ++ (']' :: rest)))))
      = some (x :: xs, '\n' :: (indentChars ind ++ (']' :: rest)))) :
    parseVal (fuel + 1) (jChars ind (Jval.jarr (x :: xs)) ++ rest)
      = some (Jval.jarr (x :: xs), rest) := by
  obtain ⟨c0, cs0, hform, hnws, hne1, hne2, hne3⟩ := jChars_head (ind + 1) x hwfx
  simp only [jChars, List.cons_append, List.append_assoc, List.nil_append,
    List.singleton_append]
  conv_lhs => rw [parseVal.eq_def]
  simp only []
  rw [skipWs_cons_not_ws (by decide)]
  simp only []
  rw [if_neg (by decide : ¬ ('[' : Char) = 'n'),
    if_neg (by decide : ¬ ('[' : Char) = 't'),
    if_neg (by decide : ¬ ('[' : Char) = 'f'),
    if_neg (by decide : ¬ ('[' : Char) = '"'), if_pos trivial]
  rw [skipWs_nl_indent, hform, List.cons_append, skipWs_cons_not_ws hnws]
  simp only []
  rw [if_neg hne1, ← List.cons_append, ← hform, hitems]
  simp only []
  rw [skipWs_nl_indent, skipWs_cons_not_ws (by decide)]
  simp only []
  rw [if_pos trivial]

/-- Parsing a printed nonempty object, given that its member sequence
parses. -/
theorem parseVal_obj_cons (fuel ind : Nat) (k : String) (v : Jval)
    (ms : List (String × Jval)) (rest : List Char)
    (hmembers : parseMembers fuel
        (strChars k ++ ':' :: ' ' :: (jChars (ind + 1) v ++
          (membersChars (ind + 1) ms ++
            ('\n' :: (indentChars ind ++ (rbrace :: rest))))))
      = some ((k, v) :: ms, '\n' :: (indentChars ind ++ (rbrace :: rest)))) :
    parseVal (fuel + 1) (jChars ind (Jval.jobj ((k, v) :: ms)) ++ rest)
      = some (Jval.jobj ((k, v) :: ms), rest) := by
  simp only [jChars, memberChars, strChars, List.cons_append,
    List.append_assoc, List.nil_append, List.singleton_append] at hmembers ⊢
  conv_lhs => rw [parseVal.eq_def]
  simp only []
  rw [skipWs_cons_not_ws (by decide)]
  simp only []
  rw [if_neg (by decide : lbrace = 'n' → False),
    if_neg (by decide : lbrace = 't' → False),
    if_neg (by decide : lbrace = 'f' → False),
    if_neg (by decide : lbrace = '"' → False),
    if_neg (by decide : lbrace = '[' → False), if_pos trivial]
  rw [skipWs_nl_indent, skipWs_cons_not_ws (by decide)]
  simp only []
  rw [if_neg (by decide : ('"' : Char) = rbrace → False), hmembers]
  simp only []
  rw [skipWs_nl_indent, skipWs_cons_not_ws (by decide)]
  simp only []
  rw [if_pos trivial]

/-! ### `parseItems` and `parseMembers` on printed sequences -/

theorem parseItems_last (fuel ind : Nat) (x : Jval) (T u : List Char)
    (hval : parseVal fuel (jChars ind x ++ T) = some (x, T))
    (hT : skipWs T = ']' :: u) :
    parseItems (fuel + 1) (jChars ind x ++ (itemsChars ind [] ++ T))
      = some ([x], T) := by
  rw [itemsChars, List.nil_append]
  conv_lhs => rw [parseItems.eq_def]
  simp only []
  rw [hval]
  simp only []
  rw [hT]
  simp only []
  rw [if_neg (by decide : ¬ (']' : Char) = ',')]

theorem parseItems_more (fuel ind : Nat) (x y : Jval) (ys : List Jval)
    (T : List Char)
    (hval : parseVal fuel (jChars ind x ++ (itemsChars ind (y :: ys) ++ T))
      = some (x, itemsChars ind (y :: ys) ++ T))
    (hrest : parseItems fuel (jChars ind y ++ (itemsChars ind ys ++ T))
      = some (y :: ys, T)) :
    parseItems (fuel + 1) (jChars ind x ++ (itemsChars ind (y :: ys) ++ T))
      = some (x :: y :: ys, T) := by
  conv_lhs => rw [parseItems.eq_def]
  simp only []
  rw [hval]
  simp only []
  rw [show itemsChars ind (y :: ys) ++ T
      = ',' :: ('\n' :: (indentChars ind ++
          (jChars ind y ++ (itemsChars ind ys ++ T)))) by
    simp [itemsChars, List.append_assoc]]
  rw [skipWs_cons_not_ws (by decide)]
  simp only []
  rw [if_pos trivial]
  rw [show parseItems fuel ('\n' :: (indentChars ind ++
        (jChars ind y ++ (itemsChars ind ys ++ T))))
      = parseItems fuel (jChars ind y ++ (itemsChars ind ys ++ T)) from
    parseItems_ws fuel _ (nl_indent_ws ind)]
  rw [hrest]

theorem space_ws : ∀ c ∈ [' '], isWs c = true := by
  intro c hc
  simp only [List.mem_singleton] at hc
  subst hc
  decide

theorem parseMembers_one (fuel ind : Nat) (k : String) (v : Jval)
    (T u : List Char)
    (hval : parseVal fuel (jChars ind v ++ T) = some (v, T))
    (hT : skipWs T = rbrace :: u) :
    parseMembers (fuel + 1)
        (strChars k ++ ':' :: ' ' :: (jChars ind v ++ T))
      = some ([(k, v)], T) := by
  conv_lhs => rw [parseMembers.eq_def]
  simp only [strChars, List.cons_append, List.append_assoc,
    List.singleton_append, List.nil_append]
  rw [skipWs_cons_not_ws (by decide)]
  simp only []
  rw [if_pos trivial, strBody_flatMap]
  simp only []
  rw [skipWs_cons_not_ws (by decide)]
  simp only []
  rw [if_pos trivial]
  rw [show parseVal fuel (' ' :: (jChars ind v ++ T))
      = parseVal fuel (jChars ind v ++ T) from parseVal_ws fuel _ space_ws]
  rw [hval]
  simp only []
  rw [hT]
  simp only []
  rw [if_neg (by decide : rbrace = ',' → False)]

theorem parseMembers_more (fuel ind : Nat) (k : String) (v : Jval)
    (k2 : String) (v2 : Jval) (ms : List (String × Jval)) (T : List Char)
    (hval : parseVal fuel
        (jChars ind v ++ (membersChars ind ((k2, v2) :: ms) ++ T))
      = some (v, membersChars ind ((k2, v2) :: ms) ++ T))
    (hrest : parseMembers fuel
        (strChars k2 ++ ':' :: ' ' :: (jChars ind v2 ++
          (membersChars ind ms ++ T)))
      = some ((k2, v2) :: ms, T)) :
    parseMembers (fuel + 1)
        (strChars k ++ ':' :: ' ' ::
          (jChars ind v ++ (membersChars ind ((k2, v2) :: ms) ++ T)))
      = some ((k, v) :: (k2, v2) :: ms, T) := by
  conv_lhs => rw [parseMembers.eq_def]
  simp only [strChars, List.cons_append, List.append_assoc,
    List.singleton_append, List.nil_append]
  rw [skipWs_cons_not_ws (by decide)]
  simp only []
  rw [if_pos trivial, strBody_flatMap]
  simp only []
  rw [skipWs_cons_not_ws (by decide)]
  simp only []
  rw [if_pos trivial]
  rw [show parseVal fuel (' ' :: (jChars ind v ++
        (membersChars ind ((k2, v2) :: ms) ++ T)))
      = parseVal fuel (jChars ind v ++ (membersChars ind ((k2, v2) :: ms) ++ T))
      from parseVal_ws fuel _ space_ws]
  rw [hval]
  simp only []
  rw [show membersChars ind ((k2, v2) :: ms) ++ T
      = ',' :: ('\n' :: (indentChars ind ++ (memberChars ind (k2, v2) ++
          (membersChars ind ms ++ T)))) by
    simp [membersChars, List.append_assoc]]
  rw [skipWs_cons_not_ws (by decide)]
  simp only []
  rw [if_pos trivial]
  rw [show parseMembers fuel ('\n' :: (indentChars ind ++
        (memberChars ind (k2, v2) ++ (membersChars ind ms ++ T))))
      = parseMembers fuel (memberChars ind (k2, v2) ++
          (membersChars ind ms ++ T)) from
    parseMembers_ws fuel _ (nl_indent_ws ind)]
  rw [show memberChars ind (k2, v2) ++ (membersChars ind ms ++ T)
      = strChars k2 ++ ':' :: ' ' :: (jChars ind v2 ++
          (membersChars ind ms ++ T)) by
    simp [memberChars, List.append_assoc]]
  rw [hrest]

/-! ### The joint round-trip induction -/

theorem jsize_pos (v : Jval) : 1 ≤ jsize v := by
  cases v <;> simp [jsize]

/-- Round trip of the printer through the parser, by induction on fuel:
a printed value parses back exactly (with any numeral-stopping suffix),
and so do printed element and member sequences followed by their closing
bracket. -/
theorem parse_print_main (fuel : Nat) :
    (∀ (v : Jval) (ind : Nat) (rest : List Char), jsize v ≤ fuel →
      wfB v = true → numStop rest →
      parseVal fuel (jChars ind v ++ rest) = some (v, rest)) ∧
    (∀ (x : Jval) (xs : List Jval) (ind : Nat) (T u : List Char),
      1 + jsize x + jsizeL xs ≤ fuel → wfB x = true → wfL xs = true →
      skipWs T = ']' :: u →
      parseItems fuel (jChars ind x ++ (itemsChars ind xs ++ T))
        = some (x :: xs, T)) ∧
    (∀ (k : String) (v : Jval) (ms : List (String × Jval)) (ind : Nat)
      (T u : List Char),
      1 + jsize v + jsizeM ms ≤ fuel → wfB v = true → wfM ms = true →
      skipWs T = rbrace :: u →
      parseMembers fuel
          (strChars k ++ ':' :: ' ' ::
            (jChars ind v ++ (membersChars ind ms ++ T)))
        = some ((k, v) :: ms, T)) := by
  induction fuel with
  | zero =>
    refine ⟨?_, ?_, ?_⟩
    · intro v ind rest hsz _ _
      have := jsize_pos v
      omega
    · intro x xs ind T u hsz _ _ _
      omega
    · intro k v ms ind T u hsz _ _ _
      omega
  | succ fuel ih =>
    obtain ⟨ihV, ihI, ihM⟩ := ih
    refine ⟨?_, ?_, ?_⟩
    · intro v ind rest hsz hwf hstop
      cases v with
      | jnull => exact parseVal_null fuel ind rest
      | jbool b =>
        cases b with
        | false => exact parseVal_false fuel ind rest
        | true => exact parseVal_true fuel ind rest
      | jnum n => exact parseVal_num fuel ind (by simpa [wfB] using hwf) hstop
      | jstr s => exact parseVal_str fuel ind s rest
      | jarr xs =>
        cases xs with
        | nil => exact parseVal_arr_nil fuel ind rest
        | cons x xs' =>
          have hws : wfB x = true ∧ wfL xs' = true := by
            simpa [wfB, wfL, Bool.and_eq_true] using hwf
          have hsz' : 1 + jsize x + jsizeL xs' ≤ fuel := by
            simp only [jsize, jsizeL] at hsz
            omega
          refine parseVal_arr_cons fuel ind x xs' rest hws.1 ?_
          refine ihI x xs' (ind + 1) _ rest hsz' hws.1 hws.2 ?_
          rw [skipWs_nl_indent, skipWs_cons_not_ws (by decide)]
      | jobj ms =>
        cases ms with
        | nil => exact parseVal_obj_nil fuel ind rest
        | cons m ms' =>
          obtain ⟨k, v⟩ := m
          have hws : wfB v = true ∧ wfM ms' = true := by
            simpa [wfB, wfM, Bool.and_eq_true] using hwf
          have hsz' : 1 + jsize v + jsizeM ms' ≤ fuel := by
            simp only [jsize, jsizeM] at hsz
            omega
          refine parseVal_obj_cons fuel ind k v ms' rest ?_
          refine ihM k v ms' (ind + 1) _ rest hsz' hws.1 hws.2 ?_
          rw [skipWs_nl_indent, skipWs_cons_not_ws (by decide)]
    · intro x xs ind T u hsz hwfx hwfxs hT
      have hstop : numStop (itemsChars ind xs ++ T) := by
        cases xs with
        | nil =>
          rw [itemsChars, List.nil_append]
          exact numStop_of_skipWs hT
            ⟨by decide, by decide, by decide, by decide⟩
        | cons y ys =>
          rw [show itemsChars ind (y :: ys) ++ T
              = ',' :: ('\n' :: (indentChars ind ++
                  (jChars ind y ++ (itemsChars ind ys ++ T)))) by
            simp [itemsChars, List.append_assoc]]
          exact ⟨by decide, by decide, by decide, by decide⟩
      have hval := ihV x ind (itemsChars ind xs ++ T) (by omega) hwfx hstop
      cases xs with
      | nil =>
        refine parseItems_last fuel ind x T u ?_ hT
        simpa [itemsChars] using hval
      | cons y ys =>
        have hwy : wfB y = true ∧ wfL ys = true := by
          simpa [wfL, Bool.and_eq_true] using hwfxs
        refine parseItems_more fuel ind x y ys T hval ?_
        refine ihI y ys ind T u ?_ hwy.1 hwy.2 hT
        simp only [jsizeL] at hsz
        omega
    · intro k v ms ind T u hsz hwfv hwfms hT
      have hstop : numStop (membersChars ind ms ++ T) := by
        cases ms with
        | nil =>
          rw [membersChars, List.nil_append]
          exact numStop_of_skipWs hT
            ⟨by decide, by decide, by decide, by decide⟩
        | cons m2 ms2 =>
          rw [show membersChars ind (m2 :: ms2) ++ T
              = ',' :: ('\n' :: (indentChars ind ++
                  (memberChars ind m2 ++ (membersChars ind ms2 ++ T)))) by
            simp [membersChars, List.append_assoc]]
          exact ⟨by decide, by decide, by decide, by decide⟩
      have hval := ihV v ind (membersChars ind ms ++ T) (by omega) hwfv hstop
      cases ms with
      | nil =>
        refine parseMembers_one fuel ind k v T u ?_ hT
        simpa [membersChars] using hval
      | cons m2 ms2 =>
        obtain ⟨k2, v2⟩ := m2
        have hwv : wfB v2 = true ∧ wfM ms2 = true := by
          simpa [wfM, Bool.and_eq_true] using hwfms
        refine parseMembers_more fuel ind k v k2 v2 ms2 T hval ?_
        refine ihM k2 v2 ms2 ind T u ?_ hwv.1 hwv.2 hT
        simp only [jsizeM] at hsz
        omega

/-! ### The input length is always enough fuel -/

mutual

theorem jsize_le_length (v : Jval) (ind : Nat) (hwf : wfB v = true) :
    jsize v ≤ (jChars ind v).length := by
  cases v with
  | jnull => simp [jsize, jChars]
  | jbool b => cases b <;> simp [jsize, jChars]
  | jstr s => simp [jsize, jChars, strChars]
  | jnum n =>
    obtain ⟨hip, _, _⟩ := numWF_parts (by simpa [wfB] using hwf)
    obtain ⟨neg, ip, fp, ex⟩ := n
    cases ip with
    | nil => exact absurd rfl hip
    | cons d ds =>
      simp only [jsize, jChars, numChars, List.length_append, digitsChars,
        List.length_map, List.length_cons]
      omega
  | jarr xs =>
    cases xs with
    | nil => simp [jsize, jsizeL, jChars]
    | cons x xs' =>
      have hws : wfB x = true ∧ wfL xs' = true := by
        simpa [wfB, wfL, Bool.and_eq_true] using hwf
      have h1 := jsize_le_length x (ind + 1) hws.1
      have h2 := jsizeL_le_length xs' (ind + 1) hws.2
      simp only [jsize, jsizeL, jChars, List.length_append, List.length_cons,
        List.length_nil] at h1 h2 ⊢
      omega
  | jobj ms =>
    cases ms with
    | nil => simp [jsize, jsizeM, jChars]
    | cons m ms' =>
      have hws : wfB m.2 = true ∧ wfM ms' = true := by
        simpa [wfB, wfM, Bool.and_eq_true] using hwf
      have h1 := jsize_le_length m.2 (ind + 1) hws.1
      have h2 := jsizeM_le_length ms' (ind + 1) hws.2
      simp only [jsize, jsizeM, jChars, memberChars, List.length_append,
        List.length_cons, List.length_nil] at h1 h2 ⊢
      omega

theorem jsizeL_le_length (xs : List Jval) (ind : Nat) (hwf : wfL xs = true) :
    jsizeL xs ≤ (itemsChars ind xs).length := by
  cases xs with
  | nil => simp [jsizeL, itemsChars]
  | cons x xs' =>
    have hws : wfB x = true ∧ wfL xs' = true := by
      simpa [wfL, Bool.and_eq_true] using hwf
    have h1 := jsize_le_length x ind hws.1
    have h2 := jsizeL_le_length xs' ind hws.2
    simp only [jsizeL, itemsChars, List.length_append, List.length_cons,
      List.length_nil] at h1 h2 ⊢
    omega

theorem jsizeM_le_length (ms : List (String × Jval)) (ind : Nat)
    (hwf : wfM ms = true) :
    jsizeM ms ≤ (membersChars ind ms).length := by
  cases ms with
  | nil => simp [jsizeM, membersChars]
  | cons m ms' =>
    have hws : wfB m.2 = true ∧ wfM ms' = true := by
      simpa [wfM, Bool.and_eq_true] using hwf
    have h1 := jsize_le_length m.2 ind hws.1
    have h2 := jsizeM_le_length ms' ind hws.2
    simp only [jsizeM, membersChars, memberChars, List.length_append,
      List.length_cons, List.length_nil] at h1 h2 ⊢
    omega

end

/-- C5.  For every JSON value with well-formed numerals — in particular
every serialized Strategy, unknown fields included — exporting with
`JSON.stringify(·, null, 2)` and re-importing with `JSON.parse` yields the
same value: the same fields with the same values in the same order. -/
theorem claim_C5_export_import_roundtrip (v : Jval) (hwf : wfB v = true) :
    importJSON (exportJSON v) = some v := by
  rw [importJSON, exportJSON]
  rw [show (String.mk (jChars 0 v)).data = jChars 0 v from rfl]
  rw [parseJson]
  have hlen : jsize v ≤ (jChars 0 v).length + 1 := by
    have := jsize_le_length v 0 hwf
    omega
  have h := (parse_print_main ((jChars 0 v).length + 1)).1 v 0 [] hlen hwf trivial
  rw [List.append_nil] at h
  rw [h]
  simp [skipWs]

/-- A concrete strategy-shaped JSON value: a rule list with priority and
stake numbers (one fractional), an escaped string, and an unknown extra
field that must survive the round trip. -/
def demoStrategyJson : Jval :=
  Jval.jobj
    [ ("id", Jval.jstr "s1"),
      ("name", Jval.jstr "Demo \"A\"\n"),
      ("rules", Jval.jarr
        [ Jval.jobj
            [ ("id", Jval.jstr "R1"),
              ("priority",
                Jval.jnum { neg := false, ip := [1], fp := [], ex := none }),
              ("stake",
                Jval.jnum { neg := false, ip := [1], fp := [5], ex := none }),
              ("stop_on_match", Jval.jbool true) ] ]),
      ("extra_unknown_field", Jval.jnull) ]

theorem claim_C5_export_import_roundtrip_witness :
    wfB demoStrategyJson = true ∧
    importJSON (exportJSON demoStrategyJson) = some demoStrategyJson :=
  ⟨rfl, claim_C5_export_import_roundtrip demoStrategyJson rfl⟩

end LayEngine
